import Mathlib

/-!
Shallow embedding of the quality-coding core of the hydrobot repository
(HorizonsRC/hydrobot), together with proofs settling the frozen claims.

Time series are embedded as association lists `List (ℕ × α)` from an
abstract integer timestamp to a value; a missing value (NaN in the
original pandas frames) is `Option.none`.  All numeric values are `ℚ`
(the original code computes with IEEE floats; no claim here depends on
rounding, and where a float NaN or infinity can arise the embedding
notes the correspondence at the definition).
-/

/-! ## Tolerance evaluators (src/hydrobot/data_sources.py) -/

/-- Flat tolerance policy, from `Measurement` in src/hydrobot/data_sources.py. -/
structure Measurement where
  qc_500_limit : ℚ
  qc_600_limit : ℚ

/-- Translation of `Measurement.find_qc` (src/hydrobot/data_sources.py lines 26-34):
`diff = |base - check|`; strict three-way comparison against the 600 and 500 limits. -/
def Measurement.find_qc (m : Measurement) (base_datum check_datum : ℚ) : ℤ :=
  let diff := |base_datum - check_datum|
  if diff < m.qc_600_limit then 600
  else if diff < m.qc_500_limit then 500
  else 400

/-- Two-level tolerance policy, from `TwoLevelMeasurement` in src/hydrobot/data_sources.py. -/
structure TwoLevelMeasurement where
  qc_500_limit : ℚ
  qc_600_limit : ℚ
  qc_500_percent : ℚ
  qc_600_percent : ℚ
  limit_percent_threshold : ℚ

/-- Translation of `TwoLevelMeasurement.find_qc` (src/hydrobot/data_sources.py lines
64-83): flat rule below the magnitude threshold, percentage rule at or above it. -/
def TwoLevelMeasurement.find_qc (m : TwoLevelMeasurement) (base_datum check_datum : ℚ) : ℤ :=
  if base_datum < m.limit_percent_threshold then
    let diff := |base_datum - check_datum|
    if diff < m.qc_600_limit then 600
    else if diff < m.qc_500_limit then 500
    else 400
  else
    let diff := |base_datum / check_datum - 1| * 100
    if diff < m.qc_600_percent then 600
    else if diff < m.qc_500_percent then 500
    else 400

/-- Modelled from the spec: the evaluator variant carrying a constant calibration
shift is the `QualityCodeEvaluator` family of the released `hydrobot.data_sources`
module, which is not under src/ (src/hydrobot/data_sources.py predates it; only its
caller `Processor.__init__`, src/hydrobot/processor.py lines 259-264, is present).
Spec section 4.3: "Both variants accept an optional constant shift added to
`check_value` before computing `diff`". -/
def Measurement.find_qc_shifted (m : Measurement) (shift base_datum check_datum : ℚ) : ℤ :=
  m.find_qc base_datum (check_datum + shift)

/-- Modelled from the spec: two-level variant of the constant calibration shift,
see `Measurement.find_qc_shifted`.  The shift is added to the check value before
any difference or ratio is formed. -/
def TwoLevelMeasurement.find_qc_shifted (m : TwoLevelMeasurement)
    (shift base_datum check_datum : ℚ) : ℤ :=
  m.find_qc base_datum (check_datum + shift)

/-! ## Rainfall ramp variant (src/hydrobot/utils.py, check_data_ramp_and_quality) -/

/-- Running cumulative sums with initial accumulator, used to embed `pd.Series.cumsum`. -/
def cumsumAux (acc : ℚ) : List ℚ → List ℚ
  | [] => []
  | v :: tl => (acc + v) :: cumsumAux (acc + v) tl

/-- Embedding of `std_series.cumsum()`. -/
def cumsum (l : List ℚ) : List ℚ := cumsumAux 0 l

/-- Value of an association-list series at a timestamp (`series[t]` for a scalar key):
`none` plays the role of the `KeyError` case. -/
def seriesLookup : List (ℕ × ℚ) → ℕ → Option ℚ
  | [], _ => none
  | p :: tl, t => if p.1 = t then some p.2 else seriesLookup tl t

/-- Embedding of `std_series.cumsum()` as a series: same timestamps, running totals. -/
def incrementalOf (std : List (ℕ × ℚ)) : List (ℕ × ℚ) :=
  (std.map Prod.fst).zip (cumsum (std.map Prod.snd))

/-- Embedding of `pd.Series.diff()` on the list of values: first entry `none` (NaN),
then successive differences. -/
def diffVals : List ℚ → List (Option ℚ)
  | [] => []
  | v :: tl => none :: ((v :: tl).tail.zipWith (fun a b => some (a - b)) (v :: tl))

/-- Embedding of `(scada_difference > 0.9) & (scada_difference < 1.1)` at one check
position, where `c` is the check value and `d` the increment of the recorded totals.
A float NaN (the leading `diff()` entry, or 0/0) and a float infinity (division of a
nonzero check by a zero increment) both fail the conjunction of strict comparisons in
the original, so the `none` and `d = 0` branches return `false` exactly as the code does. -/
def ramp_ok (c : ℚ) (d : Option ℚ) : Bool :=
  match d with
  | none => false
  | some d => if d = 0 then false else decide ((9 : ℚ) / 10 < c / d) && decide (c / d < (11 : ℚ) / 10)

/-- Embedding of `check_series / recorded_totals.diff()` at one position, as used for
the ramp multiplier.  `none` stands for the float NaN produced by the leading `diff()`
entry; a zero increment (float infinity or NaN) is also mapped to `none`, which agrees
with the original in every comparison used for the quality code. -/
def ramp_ratio (c : ℚ) (d : Option ℚ) : Option ℚ :=
  match d with
  | none => none
  | some d => if d = 0 then none else some (c / d)

/-- Per-check-position quality codes before the hilltop shift:
`qc_600.astype(np.float64) * 200 + 400`. -/
def interval_codes (cs : List ℚ) (ds : List (Option ℚ)) : List ℤ :=
  (cs.zip ds).map (fun p => if ramp_ok p.1 p.2 then 600 else 400)

/-- Backfill lookup: value at the first timestamp `>= t` of the series, the embedding
of `reindex(std_series.index, method="bfill")` at a single standard timestamp. -/
def bfillOpt (s : List (ℕ × Option ℚ)) (t : ℕ) : Option (Option ℚ) :=
  ((s.filter (fun p => decide (t ≤ p.1))).head?).map Prod.snd

/-- The recorded incremental totals at the check timestamps,
`incremental_series[check_series.index]`, kept as options: a `none` is the `KeyError`. -/
def recordedTotals (std check : List (ℕ × ℚ)) : List (Option ℚ) :=
  check.map (fun p => seriesLookup (incrementalOf std) p.1)

/-- The pre-shift per-position codes of `check_data_ramp_and_quality`, exposed for the
statements about the shifted output. -/
def ramp_interval_codes (std check : List (ℕ × ℚ)) : List ℤ :=
  interval_codes (check.map Prod.snd) (diffVals ((recordedTotals std check).reduceOption))

/-- Translation of `check_data_ramp_and_quality` (src/hydrobot/utils.py lines 458-505).
The `KeyError` raised when a check timestamp is absent from the standard series is the
`Except.error` case; otherwise the pair (ramped standard series, quality series) is
returned.  The quality codes are computed per check position, shifted one position
earlier (`shift(periods=-1)`), and the vacated last position is filled with 0. -/
def check_data_ramp_and_quality (std_series check_series : List (ℕ × ℚ)) :
    Except String (List (ℕ × ℚ) × List (ℕ × ℤ)) :=
  let recorded_totals := recordedTotals std_series check_series
  if recorded_totals.all (fun o => o.isSome) then
    let rt : List ℚ := recorded_totals.reduceOption
    let ds := diffVals rt
    let ratios : List (ℕ × Option ℚ) :=
      (check_series.map Prod.fst).zip
        (((check_series.map Prod.snd).zip ds).map (fun p => ramp_ratio p.1 p.2))
    let ramped := std_series.map (fun p => (p.1, p.2 * ((bfillOpt ratios p.1).join).getD 0))
    let codes := interval_codes (check_series.map Prod.snd) ds
    let quality := (check_series.map Prod.fst).zip (codes.drop 1 ++ [0])
    Except.ok (ramped, quality)
  else Except.error "Check data times not found in the standard series"

example : check_data_ramp_and_quality [(0, 0), (1, 5), (2, 4)] [(0, 0), (2, 10)] =
    Except.ok ([(0, 0), (1, 50 / 9), (2, 40 / 9)], [(0, 400), (2, 0)]) := by
  norm_num [check_data_ramp_and_quality, recordedTotals, incrementalOf, seriesLookup,
    cumsum, cumsumAux, diffVals, interval_codes, ramp_ok, ramp_ratio, bfillOpt,
    List.filter, List.zip, List.zipWith]

example : check_data_ramp_and_quality [(0, 0), (1, 5)] [(0, 0), (3, 10)] =
    Except.error "Check data times not found in the standard series" := by
  norm_num [check_data_ramp_and_quality, recordedTotals, incrementalOf, seriesLookup,
    cumsum, cumsumAux]

/-! ## Helper lemmas for the rainfall ramp variant -/

theorem cumsumAux_length (acc : ℚ) (l : List ℚ) : (cumsumAux acc l).length = l.length := by
  induction l generalizing acc with
  | nil => rfl
  | cons v tl ih => simp [cumsumAux, ih]

theorem cumsum_length (l : List ℚ) : (cumsum l).length = l.length :=
  cumsumAux_length 0 l

theorem seriesLookup_isSome_iff (s : List (ℕ × ℚ)) (t : ℕ) :
    (seriesLookup s t).isSome ↔ t ∈ s.map Prod.fst := by
  induction s with
  | nil => simp [seriesLookup]
  | cons p tl ih =>
    by_cases h : p.1 = t
    · simp [seriesLookup, h]
    · simp [seriesLookup, h, ih, Ne.symm h]

theorem incrementalOf_map_fst (std : List (ℕ × ℚ)) :
    (incrementalOf std).map Prod.fst = std.map Prod.fst := by
  unfold incrementalOf
  rw [List.map_fst_zip]
  simp [cumsum_length]

theorem reduceOption_getElem_of_all_isSome {α : Type} {l : List (Option α)}
    (h : l.all Option.isSome) (i : ℕ) : l.reduceOption[i]? = (l[i]?).bind id := by
  induction l generalizing i with
  | nil => simp
  | cons o tl ih =>
    simp only [List.all_cons, Bool.and_eq_true] at h
    obtain ⟨a, rfl⟩ := Option.isSome_iff_exists.mp h.1
    cases i with
    | zero => simp [List.reduceOption_cons_of_some]
    | succ j => simp [List.reduceOption_cons_of_some, ih h.2]

theorem diffVals_length (l : List ℚ) : (diffVals l).length = l.length := by
  cases l with
  | nil => rfl
  | cons v tl => simp [diffVals]

theorem diffVals_getElem_succ (l : List ℚ) (j : ℕ) :
    (diffVals l)[j + 1]? = (l[j + 1]?).bind fun x => (l[j]?).map fun y => some (x - y) := by
  cases l with
  | nil => simp [diffVals]
  | cons v tl =>
    simp only [diffVals, List.tail_cons, List.getElem?_cons_succ]
    rw [List.getElem?_zipWith']
    cases htl : tl[j]? <;> cases hv : (v :: tl)[j]? <;>
      simp_all [List.getElem?_cons_succ]

theorem ramp_ok_inversion {std check : List (ℕ × ℚ)} {r : List (ℕ × ℚ)} {q : List (ℕ × ℤ)}
    (h : check_data_ramp_and_quality std check = Except.ok (r, q)) :
    (recordedTotals std check).all Option.isSome = true
    ∧ q = (check.map Prod.fst).zip ((ramp_interval_codes std check).drop 1 ++ [0]) := by
  unfold check_data_ramp_and_quality at h
  by_cases hc : (recordedTotals std check).all (fun o => o.isSome)
  · refine ⟨by simpa using hc, ?_⟩
    simp only [hc, if_true, Except.ok.injEq, Prod.mk.injEq] at h
    exact h.2.symm
  · simp [hc] at h

theorem ramp_interval_codes_length {std check : List (ℕ × ℚ)}
    (hall : (recordedTotals std check).all Option.isSome = true) :
    (ramp_interval_codes std check).length = check.length := by
  unfold ramp_interval_codes interval_codes
  have h1 : (recordedTotals std check).reduceOption.length = check.length := by
    rw [List.reduceOption_length_eq_iff.mpr ?_]
    · simp [recordedTotals]
    · intro x hx
      simpa using List.all_eq_true.mp hall x hx
  simp [List.length_zip, diffVals_length, h1]

/-- C3: for both tolerance evaluator variants, evaluating with a configured constant
calibration shift equals the unshifted evaluation applied to the check value plus the
shift: the shift is added to the check value before the difference used for the
quality-code comparison is computed. -/
theorem find_qc_shift_adds_to_check (m : Measurement) (tm : TwoLevelMeasurement)
    (shift base_datum check_datum : ℚ) :
    m.find_qc_shifted shift base_datum check_datum
        = m.find_qc base_datum (check_datum + shift)
    ∧ tm.find_qc_shifted shift base_datum check_datum
        = tm.find_qc base_datum (check_datum + shift) :=
  ⟨rfl, rfl⟩

theorem cdraq_error_iff (std check : List (ℕ × ℚ)) :
    (∃ e, check_data_ramp_and_quality std check = Except.error e)
      ↔ (recordedTotals std check).all Option.isSome = false := by
  simp only [check_data_ramp_and_quality]
  split
  next hcond =>
    simp_all
    exact fun h => by simpa using hcond none h
  next hcond => simp_all

/-- C9: `check_data_ramp_and_quality` raises the `KeyError` exactly when some check
timestamp is absent from the standard series' index (no partial result is returned in
that case); when every check timestamp is present it does not raise for that reason. -/
theorem ramp_keyerror_iff_missing_check_time (std check : List (ℕ × ℚ)) :
    (∃ e, check_data_ramp_and_quality std check = Except.error e)
      ↔ ∃ t ∈ check.map Prod.fst, t ∉ std.map Prod.fst := by
  rw [cdraq_error_iff, List.all_eq_false]
  constructor
  · rintro ⟨o, ho, hno⟩
    obtain ⟨p, hp, rfl⟩ := List.mem_map.mp
      (show o ∈ check.map (fun p => seriesLookup (incrementalOf std) p.1) from ho)
    refine ⟨p.1, List.mem_map_of_mem _ hp, fun hmem => ?_⟩
    rw [← incrementalOf_map_fst] at hmem
    exact hno (by simpa using (seriesLookup_isSome_iff (incrementalOf std) p.1).mpr hmem)
  · rintro ⟨t, ht, hnot⟩
    obtain ⟨p, hp, rfl⟩ := List.mem_map.mp ht
    refine ⟨seriesLookup (incrementalOf std) p.1,
      show _ ∈ check.map (fun p => seriesLookup (incrementalOf std) p.1) from
        List.mem_map_of_mem _ hp, fun hs => ?_⟩
    exact hnot ((incrementalOf_map_fst std) ▸
      (seriesLookup_isSome_iff (incrementalOf std) p.1).mp hs)

theorem zip_getElem? {α β : Type} (l₁ : List α) (l₂ : List β) (i : ℕ) :
    (l₁.zip l₂)[i]? = (l₁[i]?).bind fun a => (l₂[i]?).map fun b => (a, b) := by
  rw [List.zip_eq_zipWith, List.getElem?_zipWith']
  cases l₁[i]? <;> cases l₂[i]? <;> simp

theorem shifted_codes_getElem {C : List ℤ} {i n : ℕ} (hC : C.length = n)
    (hi : i + 1 < n) : (C.drop 1 ++ [(0:ℤ)])[i]? = C[i + 1]? := by
  rw [List.getElem?_append, if_pos (by simp [hC]; omega), List.getElem?_drop,
    Nat.add_comm 1 i]

/-- C10: for every non-empty accepted check series, the returned quality series covers
exactly the check timestamps, the per-interval codes are shifted one position earlier,
and the vacated final position carries code 0, so the emitted timeline always
terminates in code 0 at the final check instant. -/
theorem ramp_quality_terminates_in_zero {std check r : List (ℕ × ℚ)} {q : List (ℕ × ℤ)}
    (h : check_data_ramp_and_quality std check = Except.ok (r, q)) (hne : check ≠ []) :
    q.map Prod.fst = check.map Prod.fst
    ∧ q.getLast? = (check.map Prod.fst).getLast?.map (fun t => (t, (0:ℤ)))
    ∧ ∀ i, i + 1 < check.length →
        q[i]? = ((check.map Prod.fst)[i]?).map
          (fun t => (t, (ramp_interval_codes std check).getD (i + 1) 0)) := by
  obtain ⟨hall, hq⟩ := ramp_ok_inversion h
  have hn : 0 < check.length := List.length_pos.mpr hne
  have hlenC : (ramp_interval_codes std check).length = check.length :=
    ramp_interval_codes_length hall
  have hlen2 : ((ramp_interval_codes std check).drop 1 ++ [(0:ℤ)]).length = check.length := by
    simp [hlenC]; omega
  have hkeys : (check.map Prod.fst).length = check.length := by simp
  refine ⟨?_, ?_, ?_⟩
  · rw [hq]
    exact List.map_fst_zip _ _ (by
      simp only [List.length_map, List.length_append, List.length_drop,
        List.length_singleton]
      omega)
  · rw [hq]
    rw [List.getLast?_eq_getElem?, List.getLast?_eq_getElem?]
    have hql : ((check.map Prod.fst).zip
        ((ramp_interval_codes std check).drop 1 ++ [(0:ℤ)])).length = check.length := by
      simp only [List.length_zip, List.length_map, List.length_append, List.length_drop,
        List.length_singleton]
      omega
    rw [hql, zip_getElem?, hkeys]
    have hlast : ((ramp_interval_codes std check).drop 1 ++ [(0:ℤ)])[check.length - 1]? =
        some 0 := by
      rw [List.getElem?_append_right (by simp [hlenC])]
      simp [hlenC]
    rw [hlast]
    cases hk : (check.map Prod.fst)[check.length - 1]? <;> simp
  · intro i hi
    rw [hq, zip_getElem?, shifted_codes_getElem hlenC hi]
    have hCi : (ramp_interval_codes std check)[i + 1]? =
        some ((ramp_interval_codes std check).getD (i + 1) 0) := by
      rw [List.getD_eq_getElem?_getD]
      cases hC : (ramp_interval_codes std check)[i + 1]? with
      | none =>
        rw [List.getElem?_eq_none_iff] at hC
        omega
      | some c => simp
    rw [hCi]
    cases hk : (check.map Prod.fst)[i]? <;> simp

/-- C8: each inter-check interval of the rainfall ramp variant is coded 600 when its
ramp factor (the check value divided by the standard series' incremental cumulative
total over the interval) lies strictly within ±10 percent of 1, and 400 otherwise;
the code for the interval ending at check position i+1 is emitted at position i.  In
particular an under-count of exactly 10 percent gives factor 10/9 and code 400, and an
under-count of exactly 5 percent gives factor 20/19 and code 600. -/
theorem ramp_quality_600_within_ten_percent
    {std check r : List (ℕ × ℚ)} {q : List (ℕ × ℤ)}
    (h : check_data_ramp_and_quality std check = Except.ok (r, q))
    (i : ℕ) (hi : i + 1 < check.length) (a b : ℚ)
    (ha : (recordedTotals std check)[i]? = some (some a))
    (hb : (recordedTotals std check)[i + 1]? = some (some b))
    (hd : b - a ≠ 0) :
    q[i]? = ((check.map Prod.fst)[i]?).map (fun t => (t,
      if 9 / 10 < ((check.map Prod.snd).getD (i + 1) 0) / (b - a)
          ∧ ((check.map Prod.snd).getD (i + 1) 0) / (b - a) < 11 / 10
        then (600:ℤ) else 400)) := by
  obtain ⟨hall, hq⟩ := ramp_ok_inversion h
  have hlenC := ramp_interval_codes_length hall
  rw [hq, zip_getElem?, shifted_codes_getElem hlenC hi]
  have hra : ((recordedTotals std check).reduceOption)[i]? = some a := by
    rw [reduceOption_getElem_of_all_isSome hall, ha]; rfl
  have hrb : ((recordedTotals std check).reduceOption)[i + 1]? = some b := by
    rw [reduceOption_getElem_of_all_isSome hall, hb]; rfl
  have hcs : (check.map Prod.snd)[i + 1]? = some ((check.map Prod.snd).getD (i + 1) 0) := by
    rw [List.getD_eq_getElem?_getD]
    cases hc : (check.map Prod.snd)[i + 1]? with
    | none =>
      rw [List.getElem?_eq_none_iff] at hc
      simp at hc
      omega
    | some c => simp
  have hds : (diffVals ((recordedTotals std check).reduceOption))[i + 1]?
      = some (some (b - a)) := by
    rw [diffVals_getElem_succ, hrb, hra]; rfl
  have hC : (ramp_interval_codes std check)[i + 1]? =
      some (if ramp_ok ((check.map Prod.snd).getD (i + 1) 0) (some (b - a))
        then (600:ℤ) else 400) := by
    unfold ramp_interval_codes interval_codes
    rw [List.getElem?_map, zip_getElem?, hcs, hds]
    rfl
  rw [hC]
  have hok : (ramp_ok ((check.map Prod.snd).getD (i + 1) 0) (some (b - a)) = true) ↔
      (9 / 10 < ((check.map Prod.snd).getD (i + 1) 0) / (b - a)
        ∧ ((check.map Prod.snd).getD (i + 1) 0) / (b - a) < 11 / 10) := by
    simp [ramp_ok, hd]
  cases hk : (check.map Prod.fst)[i]? with
  | none => simp
  | some t =>
    simp only [Option.map_some', Option.some_bind]
    by_cases hcond : (9 / 10 < ((check.map Prod.snd).getD (i + 1) 0) / (b - a)
        ∧ ((check.map Prod.snd).getD (i + 1) 0) / (b - a) < 11 / 10)
    · rw [if_pos (hok.mpr hcond), if_pos hcond]
    · rw [if_neg (fun hb2 => hcond (hok.mp hb2)), if_neg hcond]

theorem cdraq_ten_percent_undercount :
    check_data_ramp_and_quality [(0, 0), (1, 9)] [(0, 0), (1, 10)]
      = Except.ok ([(0, 0), (1, 10)], [(0, 400), (1, 0)]) := by
  norm_num [check_data_ramp_and_quality, recordedTotals, incrementalOf, seriesLookup,
    cumsum, cumsumAux, diffVals, interval_codes, ramp_ok, ramp_ratio, bfillOpt,
    List.filter, List.zip, List.zipWith]

theorem cdraq_five_percent_undercount :
    check_data_ramp_and_quality [(0, 0), (1, 19)] [(0, 0), (1, 20)]
      = Except.ok ([(0, 0), (1, 20)], [(0, 600), (1, 0)]) := by
  norm_num [check_data_ramp_and_quality, recordedTotals, incrementalOf, seriesLookup,
    cumsum, cumsumAux, diffVals, interval_codes, ramp_ok, ramp_ratio, bfillOpt,
    List.filter, List.zip, List.zipWith]

theorem ramp_quality_600_within_ten_percent_witness :
    (([((0:ℕ), (400:ℤ)), (1, 0)] : List (ℕ × ℤ))[0]? = some (0, 400))
    ∧ (([((0:ℕ), (600:ℤ)), (1, 0)] : List (ℕ × ℤ))[0]? = some (0, 600)) := by
  constructor
  · have := ramp_quality_600_within_ten_percent cdraq_ten_percent_undercount 0
      (by norm_num) 0 9
      (by norm_num [recordedTotals, incrementalOf, seriesLookup, cumsum, cumsumAux])
      (by norm_num [recordedTotals, incrementalOf, seriesLookup, cumsum, cumsumAux])
      (by norm_num)
    convert this using 1
  · have := ramp_quality_600_within_ten_percent cdraq_five_percent_undercount 0
      (by norm_num) 0 19
      (by norm_num [recordedTotals, incrementalOf, seriesLookup, cumsum, cumsumAux])
      (by norm_num [recordedTotals, incrementalOf, seriesLookup, cumsum, cumsumAux])
      (by norm_num)
    convert this using 1

theorem ramp_quality_terminates_in_zero_witness :
    ([((0:ℕ), (400:ℤ)), (1, 0)] : List (ℕ × ℤ)).getLast? = some (1, 0) := by
  have := (ramp_quality_terminates_in_zero cdraq_ten_percent_undercount
    (List.cons_ne_nil _ _)).2.1
  simpa using this

/-! ## Time matcher (src/hydro_processing_tools/evaluator.py) -/

/-- Error cases of the time matcher: `rangeErr` embeds the explicit out-of-range
`raise Exception`; `indexErr` embeds the `IndexError` raised by indexing an empty
index (`series.index[...]` on an empty or fully filtered index). -/
inductive MatchErr where
  | rangeErr : MatchErr
  | indexErr : MatchErr
deriving DecidableEq

/-- Absolute distance between two timestamps. -/
def tdist (a b : ℕ) : ℕ := max a b - min a b

/-- Greatest timestamp of an ascending index that is `≤ t`: `get_indexer`
with method "pad". -/
def padKey (keys : List ℕ) (t : ℕ) : Option ℕ :=
  (keys.filter (fun k => decide (k ≤ t))).getLast?

/-- Least timestamp of an ascending index that is `≥ t`: `get_indexer`
with method "backfill". -/
def bfillKey (keys : List ℕ) (t : ℕ) : Option ℕ :=
  (keys.filter (fun k => decide (t ≤ k))).head?

/-- Embedding of `series.index.get_indexer([dt], method="nearest")` followed by
`series.index[output_index][0]`, for an ascending index.  Pandas pads and backfills,
then keeps the pad candidate exactly when its distance is strictly smaller
(`op = operator.lt` for a monotonic increasing index, so a tie goes to the backfill,
i.e. later, candidate) or when the backfill candidate is absent.  When only the pad
candidate is absent, the `-1` left indexer makes both the distance comparison and the
final index lookup read the LAST element of the index (numpy wrap-around).  An empty
index gives the `IndexError`. -/
def nearestKey (keys : List ℕ) (t : ℕ) : Except MatchErr ℕ :=
  match padKey keys t, bfillKey keys t with
  | none, none => Except.error MatchErr.indexErr
  | some l, none => Except.ok l
  | none, some r =>
    match keys.getLast? with
    | none => Except.error MatchErr.indexErr
    | some last => if tdist last t < tdist r t then Except.ok last else Except.ok r
  | some l, some r => if tdist l t < tdist r t then Except.ok l else Except.ok r

/-- Translation of `find_nearest_time` (src/hydro_processing_tools/evaluator.py lines
104-129): out-of-range test against the series' first and last timestamps (strict
comparisons, boundaries accepted), then the nearest lookup; an empty series fails on
`series.index[0]`. -/
def find_nearest_time (keys : List ℕ) (t : ℕ) : Except MatchErr ℕ :=
  match keys.head?, keys.getLast? with
  | some first, some last =>
    if t < first ∨ last < t then Except.error MatchErr.rangeErr
    else nearestKey keys t
  | _, _ => Except.error MatchErr.indexErr

/-- Translation of `find_nearest_valid_time` (src/hydro_processing_tools/evaluator.py
lines 133-153): the range check uses the ORIGINAL series' first and last timestamps,
then `dropna` removes missing entries, and the nearest lookup runs over the remaining
timestamps. -/
def find_nearest_valid_time (s : List (ℕ × Option ℚ)) (t : ℕ) : Except MatchErr ℕ :=
  match (s.map Prod.fst).head?, (s.map Prod.fst).getLast? with
  | some first, some last =>
    if t < first ∨ last < t then Except.error MatchErr.rangeErr
    else nearestKey ((s.filter (fun p => p.2.isSome)).map Prod.fst) t
  | _, _ => Except.error MatchErr.indexErr

example : find_nearest_time [0, 10] 5 = Except.ok 10 := by rfl

example : find_nearest_time [0, 10] 4 = Except.ok 0 := by rfl

example : find_nearest_time [0, 10] 11 = Except.error MatchErr.rangeErr := by rfl

example : find_nearest_valid_time [(0, some 1), (10, none), (20, some 2)] 9
    = Except.ok 0 := by rfl

theorem mem_le_getLast {l : List ℕ} (hs : List.Chain' (· < ·) l) {x m : ℕ}
    (hx : x ∈ l) (hm : l.getLast? = some m) : x ≤ m := by
  obtain ⟨l', rfl⟩ := List.getLast?_eq_some_iff.mp hm
  have hp := List.chain'_iff_pairwise.mp hs
  rcases List.mem_append.mp hx with hx' | hx'
  · exact le_of_lt ((List.pairwise_append.mp hp).2.2 x hx' m (List.mem_singleton_self m))
  · simp only [List.mem_singleton] at hx'
    omega

theorem head_le_mem {l : List ℕ} (hs : List.Chain' (· < ·) l) {x m : ℕ}
    (hx : x ∈ l) (hm : l.head? = some m) : m ≤ x := by
  obtain ⟨l', rfl⟩ := List.head?_eq_some_iff.mp hm
  have hp := List.chain'_iff_pairwise.mp hs
  rcases List.mem_cons.mp hx with rfl | hx'
  · exact le_refl x
  · exact le_of_lt ((List.pairwise_cons.mp hp).1 x hx')

theorem chain'_filter {l : List ℕ} (p : ℕ → Bool) (hs : List.Chain' (· < ·) l) :
    List.Chain' (· < ·) (l.filter p) := by
  rw [List.chain'_iff_pairwise] at hs ⊢
  exact hs.filter p

theorem padKey_spec {keys : List ℕ} {t l : ℕ} (hs : List.Chain' (· < ·) keys)
    (h : padKey keys t = some l) :
    l ∈ keys ∧ l ≤ t ∧ ∀ u ∈ keys, u ≤ t → u ≤ l := by
  have hmem : l ∈ keys.filter (fun k => decide (k ≤ t)) :=
    List.mem_of_mem_getLast? (show (keys.filter (fun k => decide (k ≤ t))).getLast? = some l from h)
  have h1 := List.mem_filter.mp hmem
  refine ⟨h1.1, by simpa using h1.2, fun u hu hut => ?_⟩
  exact mem_le_getLast (chain'_filter _ hs)
    (List.mem_filter.mpr ⟨hu, by simpa using hut⟩) h

theorem bfillKey_spec {keys : List ℕ} {t r : ℕ} (hs : List.Chain' (· < ·) keys)
    (h : bfillKey keys t = some r) :
    r ∈ keys ∧ t ≤ r ∧ ∀ u ∈ keys, t ≤ u → r ≤ u := by
  have hmem : r ∈ keys.filter (fun k => decide (t ≤ k)) := List.mem_of_mem_head? h
  have h1 := List.mem_filter.mp hmem
  refine ⟨h1.1, by simpa using h1.2, fun u hu hut => ?_⟩
  exact head_le_mem (chain'_filter _ hs)
    (List.mem_filter.mpr ⟨hu, by simpa using hut⟩) h

theorem padKey_isSome {keys : List ℕ} {t first : ℕ}
    (hh : keys.head? = some first) (hft : first ≤ t) :
    ∃ l, padKey keys t = some l := by
  have hmem : first ∈ keys.filter (fun k => decide (k ≤ t)) :=
    List.mem_filter.mpr ⟨List.mem_of_mem_head? hh, by simpa using hft⟩
  rw [padKey]
  cases hfl : keys.filter (fun k => decide (k ≤ t)) with
  | nil => rw [hfl] at hmem; cases hmem
  | cons c cs => exact ⟨(c :: cs).getLast (by simp), List.getLast?_eq_getLast _ _⟩

theorem bfillKey_isSome {keys : List ℕ} {t last : ℕ}
    (hl : keys.getLast? = some last) (hft : t ≤ last) :
    ∃ r, bfillKey keys t = some r := by
  have hmem : last ∈ keys.filter (fun k => decide (t ≤ k)) :=
    List.mem_filter.mpr ⟨List.mem_of_mem_getLast? (show keys.getLast? = some last from hl),
      by simpa using hft⟩
  rw [bfillKey]
  cases hfl : keys.filter (fun k => decide (t ≤ k)) with
  | nil => rw [hfl] at hmem; cases hmem
  | cons c cs => exact ⟨c, rfl⟩

/-- C5: for an ascending series with at least one timestamp and an instant `t` within
its first and last timestamps inclusive, `find_nearest_time` returns a series
timestamp minimizing the absolute distance to `t`, and any timestamp at the same
distance is no later than the returned one: an exact tie between two adjacent
timestamps resolves to the later one. -/
theorem find_nearest_time_minimizes (keys : List ℕ) (t first last : ℕ)
    (hs : List.Chain' (· < ·) keys)
    (hh : keys.head? = some first) (hl : keys.getLast? = some last)
    (h1 : first ≤ t) (h2 : t ≤ last) :
    ∃ c, find_nearest_time keys t = Except.ok c ∧ c ∈ keys
      ∧ (∀ u ∈ keys, tdist c t ≤ tdist u t)
      ∧ (∀ u ∈ keys, tdist u t = tdist c t → u ≤ c) := by
  obtain ⟨l, hpad⟩ := padKey_isSome hh h1
  obtain ⟨r, hbf⟩ := bfillKey_isSome hl h2
  obtain ⟨hlmem, hlle, hlmax⟩ := padKey_spec hs hpad
  obtain ⟨hrmem, hrge, hrmin⟩ := bfillKey_spec hs hbf
  have hnear : nearestKey keys t
      = if tdist l t < tdist r t then Except.ok l else Except.ok r := by
    simp only [nearestKey, hpad, hbf]
  have hrange : ¬(t < first ∨ last < t) := by omega
  have hfind : find_nearest_time keys t = nearestKey keys t := by
    simp only [find_nearest_time, hh, hl]
    rw [if_neg hrange]
  by_cases hcomp : tdist l t < tdist r t
  · refine ⟨l, by rw [hfind, hnear, if_pos hcomp], hlmem, ?_, ?_⟩
    · intro u hu
      by_cases hut : u ≤ t
      · have hul := hlmax u hu hut
        simp only [tdist] at hcomp ⊢
        omega
      · have hru := hrmin u hu (by omega)
        simp only [tdist] at hcomp ⊢
        omega
    · intro u hu heq
      by_cases hut : u ≤ t
      · have hul := hlmax u hu hut
        simp only [tdist] at hcomp heq
        omega
      · have hru := hrmin u hu (by omega)
        simp only [tdist] at hcomp heq
        omega
  · refine ⟨r, by rw [hfind, hnear, if_neg hcomp], hrmem, ?_, ?_⟩
    · intro u hu
      by_cases hut : u ≤ t
      · have hul := hlmax u hu hut
        simp only [tdist] at hcomp ⊢
        omega
      · have hru := hrmin u hu (by omega)
        simp only [tdist] at hcomp ⊢
        omega
    · intro u hu heq
      by_cases hut : u ≤ t
      · have hul := hlmax u hu hut
        simp only [tdist] at hcomp heq
        omega
      · have hru := hrmin u hu (by omega)
        simp only [tdist] at hcomp heq
        omega

theorem find_nearest_time_minimizes_witness :
    List.Chain' (· < ·) [0, 10]
    ∧ ∃ c, find_nearest_time [0, 10] 5 = Except.ok c ∧ c ∈ [0, 10]
      ∧ (∀ u ∈ [0, 10], tdist c 5 ≤ tdist u 5)
      ∧ (∀ u ∈ [0, 10], tdist u 5 = tdist c 5 → u ≤ c) :=
  ⟨by norm_num [List.chain'_cons, List.chain'_singleton],
    find_nearest_time_minimizes [0, 10] 5 0 10
      (by norm_num [List.chain'_cons, List.chain'_singleton]) rfl rfl
      (by decide) (by decide)⟩

theorem nearestKey_ne_rangeErr (keys : List ℕ) (t : ℕ) :
    nearestKey keys t ≠ Except.error MatchErr.rangeErr := by
  cases hp : padKey keys t <;> cases hb : bfillKey keys t <;>
      simp only [nearestKey, hp, hb]
  · simp
  · cases hgl : keys.getLast? <;> simp only
    · simp
    · split_ifs <;> simp
  · simp
  · split_ifs <;> simp

theorem nearestKey_ok_of_ne_nil {keys : List ℕ} (t : ℕ) (hne : keys ≠ []) :
    ∃ c, nearestKey keys t = Except.ok c := by
  cases hp : padKey keys t with
  | some l =>
    cases hb : bfillKey keys t with
    | none => exact ⟨l, by simp only [nearestKey, hp, hb]⟩
    | some r =>
      by_cases hcomp : tdist l t < tdist r t
      · exact ⟨l, by simp only [nearestKey, hp, hb]; rw [if_pos hcomp]⟩
      · exact ⟨r, by simp only [nearestKey, hp, hb]; rw [if_neg hcomp]⟩
  | none =>
    cases hb : bfillKey keys t with
    | none =>
      exfalso
      obtain ⟨k, hk⟩ := List.exists_mem_of_ne_nil keys hne
      rcases le_total k t with hkt | htk
      · have : keys.filter (fun k => decide (k ≤ t)) = [] :=
          List.getLast?_eq_none_iff.mp hp
        have := List.filter_eq_nil_iff.mp this k hk
        simp [hkt] at this
      · have : keys.filter (fun k => decide (t ≤ k)) = [] :=
          List.head?_eq_none_iff.mp hb
        have := List.filter_eq_nil_iff.mp this k hk
        simp [htk] at this
    | some r =>
      cases hgl : keys.getLast? with
      | none => exact absurd (List.getLast?_eq_none_iff.mp hgl) hne
      | some last =>
        by_cases hcomp : tdist last t < tdist r t
        · exact ⟨last, by simp only [nearestKey, hp, hb, hgl]; rw [if_pos hcomp]⟩
        · exact ⟨r, by simp only [nearestKey, hp, hb, hgl]; rw [if_neg hcomp]⟩

/-- C6 counterexample: on a series all of whose entries are missing, an instant lying
inside the original span makes `find_nearest_valid_time` fail (with the index error
raised by looking up an empty filtered index), so "a t inside the original span never
fails even if the surrounding entries are missing" is false as stated. -/
theorem find_nearest_valid_time_all_missing_fails :
    find_nearest_valid_time [(0, none), (10, none)] 5
      = Except.error MatchErr.indexErr := by rfl

/-- C6 (amended): both matchers raise the out-of-range error exactly when `t` is
strictly before the first or strictly after the last timestamp of the original series
(boundary instants are accepted); `find_nearest_valid_time` performs this range check
against the original series' bounds before removing missing entries, and an in-range
`t` always succeeds provided the series has at least one non-missing entry. -/
theorem nearest_time_range_error_iff (keys : List ℕ) (s : List (ℕ × Option ℚ))
    (t first last vfirst vlast : ℕ)
    (hh : keys.head? = some first) (hl : keys.getLast? = some last)
    (hh2 : (s.map Prod.fst).head? = some vfirst)
    (hl2 : (s.map Prod.fst).getLast? = some vlast) :
    (find_nearest_time keys t = Except.error MatchErr.rangeErr ↔ (t < first ∨ last < t))
    ∧ (find_nearest_valid_time s t = Except.error MatchErr.rangeErr
        ↔ (t < vfirst ∨ vlast < t))
    ∧ (¬(t < vfirst ∨ vlast < t) → (∃ p ∈ s, p.2.isSome) →
        ∃ c, find_nearest_valid_time s t = Except.ok c) := by
  refine ⟨?_, ?_, ?_⟩
  · simp only [find_nearest_time, hh, hl]
    by_cases hcond : t < first ∨ last < t
    · simp [hcond]
    · rw [if_neg hcond]
      simp only [hcond, iff_false]
      exact nearestKey_ne_rangeErr keys t
  · simp only [find_nearest_valid_time, hh2, hl2]
    by_cases hcond : t < vfirst ∨ vlast < t
    · simp [hcond]
    · rw [if_neg hcond]
      simp only [hcond, iff_false]
      exact nearestKey_ne_rangeErr _ t
  · intro hcond hvalid
    obtain ⟨p, hp, hps⟩ := hvalid
    have hne : (s.filter (fun p => p.2.isSome)).map Prod.fst ≠ [] := by
      have : p ∈ s.filter (fun p => p.2.isSome) := List.mem_filter.mpr ⟨hp, hps⟩
      intro hnil
      rw [List.map_eq_nil_iff] at hnil
      rw [hnil] at this
      cases this
    obtain ⟨c, hc⟩ := nearestKey_ok_of_ne_nil t hne
    refine ⟨c, ?_⟩
    simp only [find_nearest_valid_time, hh2, hl2]
    rw [if_neg hcond]
    exact hc

theorem nearest_time_range_error_iff_witness :
    (find_nearest_time [0, 10] 11 = Except.error MatchErr.rangeErr ↔ (11 < 0 ∨ 10 < 11))
    ∧ (find_nearest_valid_time [(0, none), (10, some 1)] 11
        = Except.error MatchErr.rangeErr ↔ (11 < 0 ∨ 10 < 11))
    ∧ (¬(11 < 0 ∨ 10 < 11) → (∃ p ∈ [((0:ℕ), (none : Option ℚ)), (10, some 1)], p.2.isSome) →
        ∃ c, find_nearest_valid_time [(0, none), (10, some 1)] 11 = Except.ok c) :=
  nearest_time_range_error_iff [0, 10] [(0, none), (10, some 1)] 11 0 10 0 10
    rfl rfl rfl rfl

/-! ## Cross-channel minimum merge (src/hydrobot/utils.py, compare_two_qc_take_min) -/

/-- Last entry of a series whose timestamp is `≤ t`. -/
def lastLE {α : Type} (s : List (ℕ × α)) (t : ℕ) : Option (ℕ × α) :=
  (s.filter (fun p => decide (p.1 ≤ t))).getLast?

/-- Forward-fill evaluation: the value of the latest record with timestamp `≤ t`.
This is both `reindex(..., method="ffill")` evaluated at one target timestamp and the
step-function evaluation rule for a quality timeline. -/
def stepEval {α : Type} (s : List (ℕ × α)) (t : ℕ) : Option α :=
  (lastLE s t).map Prod.snd

/-- Ordered insertion without duplication, the building block of the sorted union. -/
def insertKey (k : ℕ) : List ℕ → List ℕ
  | [] => [k]
  | a :: as => if k < a then k :: a :: as else if k = a then a :: as else a :: insertKey k as

/-- Sorted union of the timestamps of two series (`index.union` of two indexes:
sorted, without duplicates). -/
def unionKeys {α β : Type} (a : List (ℕ × α)) (b : List (ℕ × β)) : List ℕ :=
  (a.map Prod.fst ++ b.map Prod.fst).foldr insertKey []

/-- Pointwise minimum after the `replace(np.nan, np.Inf)` step: `none` stands for the
infinity substituted for the NaN that `reindex` produces before a series' first
breakpoint, so it is absorbed by `np.minimum`. -/
def minInf : Option ℤ → Option ℤ → Option ℤ
  | some x, some y => some (min x y)
  | some x, none => some x
  | none, some y => some y
  | none, none => none

/-- Collapse of consecutive duplicates, the filter
`m.loc[m.shift() != m]`: an entry is kept exactly when its value differs from the
value of the immediately preceding entry; the first entry is always kept (its shifted
neighbour is NaN, which compares unequal to everything). -/
def collapseFrom (prev : Option ℤ) : List (ℕ × Option ℤ) → List (ℕ × Option ℤ)
  | [] => []
  | p :: tl => if p.2 = prev then collapseFrom p.2 tl else p :: collapseFrom p.2 tl

/-- Entry point of the duplicate collapse: keeps the first entry. -/
def collapseDup : List (ℕ × Option ℤ) → List (ℕ × Option ℤ)
  | [] => []
  | p :: tl => p :: collapseFrom p.2 tl

/-- Translation of `compare_two_qc_take_min` (src/hydrobot/utils.py lines 265-298):
reindex both series with forward fill onto the sorted union of their timestamps,
replace the NaNs (before a series' first breakpoint) by infinity, take the pointwise
minimum, and collapse consecutive duplicate codes.  The trailing `astype(np.int64)`
would fail on an infinity, but at every union timestamp at least one series
contributes a real code, so `none` never occurs in the result values. -/
def compare_two_qc_take_min (a b : List (ℕ × ℤ)) : List (ℕ × Option ℤ) :=
  collapseDup ((unionKeys a b).map (fun t => (t, minInf (stepEval a t) (stepEval b t))))

example : compare_two_qc_take_min [(0, 500), (5, 300)] [(0, 600), (3, 200)]
    = [(0, some 500), (3, some 200)] := by rfl

example : compare_two_qc_take_min [(2, 400)] [(0, 600), (3, 500)]
    = [(0, some 600), (2, some 400)] := by rfl

theorem insertKey_mem {k x : ℕ} : ∀ {l : List ℕ}, x ∈ insertKey k l ↔ x = k ∨ x ∈ l := by
  intro l
  induction l with
  | nil => simp [insertKey]
  | cons a as ih =>
    by_cases h1 : k < a
    · simp [insertKey, h1, List.mem_cons]
    · by_cases h2 : k = a
      · subst h2
        have hik : insertKey k (k :: as) = k :: as := by simp [insertKey, h1]
        rw [hik, List.mem_cons]
        tauto
      · simp only [insertKey, if_neg h1, if_neg h2, List.mem_cons, ih]
        tauto

theorem insertKey_chain' {k : ℕ} : ∀ {l : List ℕ},
    List.Chain' (· < ·) l → List.Chain' (· < ·) (insertKey k l) := by
  intro l
  induction l with
  | nil => intro _; simp [insertKey]
  | cons a as ih =>
    intro h
    by_cases h1 : k < a
    · simpa [insertKey, h1] using List.chain'_cons.mpr ⟨h1, h⟩
    · by_cases h2 : k = a
      · simpa [insertKey, h1, h2] using h
      · have h3 : a < k := by omega
        simp only [insertKey, if_neg h1, if_neg h2]
        cases as with
        | nil => simpa [insertKey] using h3
        | cons b bs =>
          obtain ⟨hab, hbs⟩ := List.chain'_cons.mp h
          have htail := ih hbs
          rw [List.chain'_cons']
          refine ⟨?_, htail⟩
          intro y hy
          by_cases hkb : k < b
          · simp [insertKey, hkb] at hy
            omega
          · by_cases hkb2 : k = b
            · simp [insertKey, hkb, hkb2] at hy
              omega
            · simp [insertKey, hkb, hkb2] at hy
              omega

theorem mem_foldr_insertKey {x : ℕ} : ∀ {l : List ℕ},
    x ∈ l.foldr insertKey [] ↔ x ∈ l := by
  intro l
  induction l with
  | nil => simp
  | cons a as ih => simp [insertKey_mem, ih, List.mem_cons]

theorem chain'_foldr_insertKey : ∀ (l : List ℕ),
    List.Chain' (· < ·) (l.foldr insertKey []) := by
  intro l
  induction l with
  | nil => simp
  | cons a as ih => exact insertKey_chain' ih

theorem unionKeys_chain' {α β : Type} (a : List (ℕ × α)) (b : List (ℕ × β)) :
    List.Chain' (· < ·) (unionKeys a b) :=
  chain'_foldr_insertKey _

theorem mem_unionKeys {α β : Type} {a : List (ℕ × α)} {b : List (ℕ × β)} {k : ℕ} :
    k ∈ unionKeys a b ↔ k ∈ a.map Prod.fst ∨ k ∈ b.map Prod.fst := by
  rw [unionKeys, mem_foldr_insertKey, List.mem_append]

theorem sorted_eq_of_mem_iff : ∀ {l₁ l₂ : List ℕ}, List.Chain' (· < ·) l₁ →
    List.Chain' (· < ·) l₂ → (∀ k, k ∈ l₁ ↔ k ∈ l₂) → l₁ = l₂ := by
  intro l₁ l₂ h₁ h₂ hmem
  have p₁ := List.chain'_iff_pairwise.mp h₁
  have p₂ := List.chain'_iff_pairwise.mp h₂
  have d₁ : l₁.Nodup := p₁.imp (fun h => Nat.ne_of_lt h)
  have d₂ : l₂.Nodup := p₂.imp (fun h => Nat.ne_of_lt h)
  have hperm : l₁.Perm l₂ := (List.perm_ext_iff_of_nodup d₁ d₂).mpr hmem
  haveI : IsAntisymm ℕ (· < ·) := ⟨fun a b hab hba => absurd hab (asymm hba)⟩
  exact List.eq_of_perm_of_sorted hperm p₁ p₂

theorem unionKeys_comm {α β : Type} (a : List (ℕ × α)) (b : List (ℕ × β)) :
    unionKeys a b = unionKeys b a := by
  refine sorted_eq_of_mem_iff (unionKeys_chain' a b) (unionKeys_chain' b a) (fun k => ?_)
  rw [mem_unionKeys, mem_unionKeys]
  tauto

theorem unionKeys_self {a : List (ℕ × ℤ)} (ha : List.Chain' (· < ·) (a.map Prod.fst)) :
    unionKeys a a = a.map Prod.fst := by
  refine sorted_eq_of_mem_iff (unionKeys_chain' a a) ha (fun k => ?_)
  rw [mem_unionKeys]
  tauto

theorem minInf_comm (x y : Option ℤ) : minInf x y = minInf y x := by
  cases x <;> cases y <;> simp [minInf, min_comm]

theorem minInf_self (x : Option ℤ) : minInf x x = x := by
  cases x <;> simp [minInf]

theorem stepEval_cons_le {α : Type} {p : ℕ × α} {tl : List (ℕ × α)} {t : ℕ}
    (h : p.1 ≤ t) : stepEval (p :: tl) t = some ((stepEval tl t).getD p.2) := by
  unfold stepEval lastLE
  rw [List.filter_cons_of_pos (by simpa using h)]
  cases hfl : tl.filter (fun q => decide (q.1 ≤ t)) with
  | nil => simp
  | cons c cs =>
    rw [List.getLast?_cons_cons]
    cases hgl : (c :: cs).getLast? with
    | none => simp at hgl
    | some q => simp [hgl]

theorem stepEval_none_of_lt {α : Type} {l : List (ℕ × α)} {t : ℕ}
    (h : ∀ k ∈ l.map Prod.fst, t < k) : stepEval l t = none := by
  unfold stepEval lastLE
  have hfl : l.filter (fun p => decide (p.1 ≤ t)) = [] := by
    rw [List.filter_eq_nil_iff]
    intro p hp
    have := h p.1 (List.mem_map_of_mem _ hp)
    simpa using by omega
  rw [hfl]
  rfl

theorem collapseFrom_sublist : ∀ (tl : List (ℕ × Option ℤ)) (prev : Option ℤ),
    (collapseFrom prev tl).Sublist tl
  | [], _ => List.Sublist.refl []
  | p :: tl, prev => by
    rw [collapseFrom]
    split_ifs with h
    · exact (collapseFrom_sublist tl p.2).cons p
    · exact (collapseFrom_sublist tl p.2).cons₂ p

theorem collapseFrom_stepD : ∀ (tl : List (ℕ × Option ℤ)) (prev : Option ℤ) (t : ℕ),
    List.Chain' (· < ·) (tl.map Prod.fst) →
    (stepEval (collapseFrom prev tl) t).getD prev = (stepEval tl t).getD prev
  | [], _, _, _ => rfl
  | p :: tl, prev, t, hs => by
    have hs' : List.Chain' (· < ·) (tl.map Prod.fst) := by
      have := hs.tail
      simpa using this
    by_cases hpt : p.1 ≤ t
    · rw [collapseFrom]
      split_ifs with h
      · rw [← h, collapseFrom_stepD tl p.2 t hs', stepEval_cons_le hpt]
        simp
      · rw [stepEval_cons_le hpt, stepEval_cons_le hpt]
        simp only [Option.getD_some]
        rw [collapseFrom_stepD tl p.2 t hs']
    · have hpair := List.chain'_iff_pairwise.mp (by simpa using hs)
      have hall : ∀ k ∈ (p :: tl).map Prod.fst, t < k := by
        intro k hk
        simp only [List.map_cons, List.mem_cons] at hk
        rcases hk with rfl | hk2
        · omega
        · have := (List.pairwise_cons.mp hpair).1 k hk2
          omega
      have hnone1 : stepEval (p :: tl) t = none := stepEval_none_of_lt hall
      have hnone2 : stepEval (collapseFrom prev (p :: tl)) t = none := by
        refine stepEval_none_of_lt (fun k hk => hall k ?_)
        exact ((collapseFrom_sublist (p :: tl) prev).map Prod.fst).subset hk
      rw [hnone1, hnone2]

theorem stepEval_collapseDup {l : List (ℕ × Option ℤ)}
    (hs : List.Chain' (· < ·) (l.map Prod.fst)) (t : ℕ) :
    stepEval (collapseDup l) t = stepEval l t := by
  cases l with
  | nil => rfl
  | cons p tl =>
    have hs' : List.Chain' (· < ·) (tl.map Prod.fst) := by
      have := hs.tail
      simpa using this
    by_cases hpt : p.1 ≤ t
    · rw [collapseDup, stepEval_cons_le hpt, stepEval_cons_le hpt,
        collapseFrom_stepD tl p.2 t hs']
    · have hpair := List.chain'_iff_pairwise.mp (by simpa using hs)
      have hall : ∀ k ∈ (p :: tl).map Prod.fst, t < k := by
        intro k hk
        simp only [List.map_cons, List.mem_cons] at hk
        rcases hk with rfl | hk2
        · omega
        · have := (List.pairwise_cons.mp hpair).1 k hk2
          omega
      have hnone1 : stepEval (p :: tl) t = none := stepEval_none_of_lt hall
      have hnone2 : stepEval (collapseDup (p :: tl)) t = none := by
        refine stepEval_none_of_lt (fun k hk => hall k ?_)
        have hsub : (collapseDup (p :: tl)).Sublist (p :: tl) := by
          rw [collapseDup]
          exact (collapseFrom_sublist tl p.2).cons₂ p
        exact (hsub.map Prod.fst).subset hk
      rw [hnone1, hnone2]

theorem stepEval_map_keys (keys : List ℕ) (f : ℕ → Option ℤ) (t : ℕ) :
    stepEval (keys.map (fun u => (u, f u))) t = (padKey keys t).map f := by
  unfold stepEval lastLE padKey
  rw [List.filter_map, List.getLast?_map, Option.map_map]
  rfl

theorem stepEval_self {a : List (ℕ × ℤ)}
    (hs : List.Chain' (· < ·) (a.map Prod.fst)) :
    ∀ {p : ℕ × ℤ}, p ∈ a → stepEval a p.1 = some p.2 := by
  induction a with
  | nil => intro p hp; cases hp
  | cons q tl ih =>
    intro p hp
    have hpair := List.chain'_iff_pairwise.mp (by simpa using hs)
    have hs' : List.Chain' (· < ·) (tl.map Prod.fst) := by
      have := hs.tail
      simpa using this
    rcases List.mem_cons.mp hp with rfl | hptl
    · rw [stepEval_cons_le (le_refl p.1)]
      have hnone : stepEval tl p.1 = none :=
        stepEval_none_of_lt (fun k hk => (List.pairwise_cons.mp hpair).1 k hk)
      rw [hnone]
      rfl
    · have hql : q.1 < p.1 :=
        (List.pairwise_cons.mp hpair).1 p.1 (List.mem_map_of_mem _ hptl)
      rw [stepEval_cons_le (le_of_lt hql), ih hs' hptl]
      rfl

theorem padKey_isSome_of_mem {keys : List ℕ} {t k : ℕ} (hk : k ∈ keys) (hkt : k ≤ t) :
    ∃ l, padKey keys t = some l := by
  have hmem : k ∈ keys.filter (fun u => decide (u ≤ t)) :=
    List.mem_filter.mpr ⟨hk, by simpa using hkt⟩
  rw [padKey]
  cases hfl : keys.filter (fun u => decide (u ≤ t)) with
  | nil => rw [hfl] at hmem; cases hmem
  | cons c cs => exact ⟨(c :: cs).getLast (by simp), List.getLast?_eq_getLast _ _⟩

theorem stepEval_congr_le {α : Type} {s : List (ℕ × α)} {t u : ℕ} (hut : u ≤ t)
    (hmax : ∀ k ∈ s.map Prod.fst, k ≤ t → k ≤ u) : stepEval s u = stepEval s t := by
  unfold stepEval lastLE
  have hfl : s.filter (fun p => decide (p.1 ≤ u)) = s.filter (fun p => decide (p.1 ≤ t)) := by
    apply List.filter_congr
    intro p hp
    have hmx := hmax p.1 (List.mem_map_of_mem _ hp)
    simp only [decide_eq_decide]
    constructor
    · intro h; omega
    · intro h; exact hmx h
  rw [hfl]

/-- C2: the cross-channel minimum merge is commutative; applied to a timeline and
itself it returns that timeline with consecutive duplicate codes collapsed; and at
every instant covered by both timelines its result, evaluated as a step function,
carries exactly the minimum of the two codes in force. -/
theorem compare_two_qc_take_min_props (a b : List (ℕ × ℤ)) (t : ℕ) (va vb : ℤ)
    (ha : List.Chain' (· < ·) (a.map Prod.fst))
    (hb : List.Chain' (· < ·) (b.map Prod.fst))
    (hva : stepEval a t = some va) (hvb : stepEval b t = some vb) :
    compare_two_qc_take_min a b = compare_two_qc_take_min b a
    ∧ compare_two_qc_take_min a a = collapseDup (a.map (fun p => (p.1, some p.2)))
    ∧ stepEval (compare_two_qc_take_min a b) t = some (some (min va vb)) := by
  refine ⟨?_, ?_, ?_⟩
  · rw [compare_two_qc_take_min, compare_two_qc_take_min, unionKeys_comm]
    congr 1
    apply List.map_congr_left
    intro u _
    rw [minInf_comm]
  · rw [compare_two_qc_take_min, unionKeys_self ha]
    congr 1
    rw [List.map_map]
    apply List.map_congr_left
    intro p hp
    simp only [Function.comp_apply]
    rw [minInf_self, stepEval_self ha hp]
  · have hmap : ((unionKeys a b).map
        (fun u => (u, minInf (stepEval a u) (stepEval b u)))).map Prod.fst
        = unionKeys a b := by
      rw [List.map_map]
      show (unionKeys a b).map (fun u => u) = unionKeys a b
      exact List.map_id' _
    have hsort2 : List.Chain' (· < ·) (((unionKeys a b).map
        (fun u => (u, minInf (stepEval a u) (stepEval b u)))).map Prod.fst) := by
      rw [hmap]
      exact unionKeys_chain' a b
    rw [compare_two_qc_take_min, stepEval_collapseDup hsort2, stepEval_map_keys]
    obtain ⟨pa, hpa, hpa2⟩ := Option.map_eq_some'.mp hva
    have hpaf := List.mem_filter.mp (List.mem_of_mem_getLast?
      (show (a.filter (fun p => decide (p.1 ≤ t))).getLast? = some pa from hpa))
    have hkeymem : pa.1 ∈ unionKeys a b :=
      mem_unionKeys.mpr (Or.inl (List.mem_map_of_mem _ hpaf.1))
    obtain ⟨u, hu⟩ := padKey_isSome_of_mem hkeymem (by simpa using hpaf.2)
    obtain ⟨humem, hule, humax⟩ := padKey_spec (unionKeys_chain' a b) hu
    have hsa : stepEval a u = stepEval a t :=
      stepEval_congr_le hule
        (fun k hk hkt => humax k (mem_unionKeys.mpr (Or.inl hk)) hkt)
    have hsb : stepEval b u = stepEval b t :=
      stepEval_congr_le hule
        (fun k hk hkt => humax k (mem_unionKeys.mpr (Or.inr hk)) hkt)
    rw [hu]
    show some (minInf (stepEval a u) (stepEval b u)) = some (some (min va vb))
    rw [hsa, hsb, hva, hvb]
    rfl

theorem compare_two_qc_take_min_props_witness :
    compare_two_qc_take_min [(0, 500), (5, 300)] [(0, 600), (3, 200)]
      = compare_two_qc_take_min [(0, 600), (3, 200)] [(0, 500), (5, 300)]
    ∧ compare_two_qc_take_min [(0, 500), (5, 300)] [(0, 500), (5, 300)]
      = collapseDup ([((0:ℕ), (500:ℤ)), (5, 300)].map (fun p => (p.1, some p.2)))
    ∧ stepEval (compare_two_qc_take_min [(0, 500), (5, 300)] [(0, 600), (3, 200)]) 4
      = some (some (min 500 200)) :=
  compare_two_qc_take_min_props [(0, 500), (5, 300)] [(0, 600), (3, 200)] 4 500 200
    (by norm_num [List.chain'_cons, List.chain'_singleton])
    (by norm_num [List.chain'_cons, List.chain'_singleton])
    rfl rfl

/-! ## Generic quality frame merge (src/hydrobot/processor.py, Processor._apply_quality) -/

/-- One row of a quality frame: the Value, Code and Details columns, each possibly
NaN (`none`). -/
structure QEntry where
  value : Option ℚ
  code : Option String
  details : Option String
deriving DecidableEq

/-- A quality frame: rows keyed by timestamp. -/
abbrev QFrame := List (ℕ × QEntry)

/-- Row of a frame at a timestamp; `none` when the timestamp is absent. -/
def entryAt : QFrame → ℕ → Option QEntry
  | [], _ => none
  | p :: tl, t => if p.1 = t then some p.2 else entryAt tl t

/-- The all-NaN row that an outer join leaves for a timestamp missing from one frame. -/
def emptyEntry : QEntry := ⟨none, none, none⟩

/-- Per-column `fillna`:
`merged_df["X"] = merged_df["X_old"].fillna(merged_df["X_new"])` for each of the three
columns. -/
def fillnaEntry (o n : QEntry) : QEntry :=
  ⟨o.value.orElse (fun _ => n.value), o.code.orElse (fun _ => n.code),
    o.details.orElse (fun _ => n.details)⟩

/-- Embedding of the outer join of the two frames (`merge(how="outer")` on indexes)
followed by the per-column fillna: a frame over the sorted union of the timestamps
whose row at `t` coalesces the old row with the new row, a missing row contributing
NaN fields. -/
def mergedFrame (old new : QFrame) : QFrame :=
  (unionKeys old new).map (fun t =>
    (t, fillnaEntry ((entryAt old t).getD emptyEntry) ((entryAt new t).getD emptyEntry)))

/-- Embedding of `DataFrame.combine_first`: over the union of the indexes, each field
takes `f`'s value when present and `g`'s otherwise. -/
def combineFirst (f g : QFrame) : QFrame :=
  (unionKeys f g).map (fun t =>
    (t, fillnaEntry ((entryAt f t).getD emptyEntry) ((entryAt g t).getD emptyEntry)))

/-- Translation of `Processor._apply_quality` (src/hydrobot/processor.py lines
1266-1306): when `replace` is set the candidate frame becomes the whole timeline;
otherwise the frames are outer-joined, each column null-coalesces old over new, and
the result is `combine_first`-ed with the existing frame. -/
def apply_quality (existing changed : QFrame) (replace : Bool) : QFrame :=
  if replace then changed
  else combineFirst (mergedFrame existing changed) existing

theorem orElse_orElse_self {α : Type} (x y : Option α) :
    ((x.orElse fun _ => y).orElse fun _ => x) = x.orElse fun _ => y := by
  cases x <;> cases y <;> rfl

theorem fillna_fillna (o n : QEntry) : fillnaEntry (fillnaEntry o n) o = fillnaEntry o n := by
  cases o with
  | mk ov oc od =>
    cases n with
    | mk nv nc nd =>
      simp only [fillnaEntry, QEntry.mk.injEq]
      exact ⟨orElse_orElse_self ov nv, orElse_orElse_self oc nc, orElse_orElse_self od nd⟩

theorem entryAt_map_keys {keys : List ℕ} {f : ℕ → QEntry} {t : ℕ} (ht : t ∈ keys) :
    entryAt (keys.map (fun u => (u, f u))) t = some (f t) := by
  induction keys with
  | nil => cases ht
  | cons a as ih =>
    rcases List.mem_cons.mp ht with rfl | ht2
    · simp [entryAt]
    · by_cases hat : a = t
      · subst hat; simp [entryAt]
      · simp only [List.map_cons, entryAt, hat, if_neg, if_false]
        exact ih ht2

theorem entryAt_mem {q : QFrame} {t : ℕ} {e : QEntry} (h : entryAt q t = some e) :
    t ∈ q.map Prod.fst := by
  induction q with
  | nil => cases h
  | cons p tl ih =>
    rw [entryAt] at h
    split_ifs at h with hp
    · simp [← hp]
    · simp only [List.map_cons, List.mem_cons]
      exact Or.inr (ih h)

theorem mergedFrame_keys (old new : QFrame) :
    (mergedFrame old new).map Prod.fst = unionKeys old new := by
  rw [mergedFrame, List.map_map]
  show (unionKeys old new).map (fun u => u) = unionKeys old new
  exact List.map_id' _

theorem unionKeys_mergedFrame (old new : QFrame) :
    unionKeys (mergedFrame old new) old = unionKeys old new := by
  refine sorted_eq_of_mem_iff (unionKeys_chain' _ _) (unionKeys_chain' _ _) (fun k => ?_)
  rw [mem_unionKeys, mem_unionKeys, mergedFrame_keys, mem_unionKeys]
  tauto

/-- C4: the generic frame merge with `replace=False` yields the frame over the union
of both frames' timestamps whose row at each timestamp null-coalesces, per field, the
existing frame's entry over the candidate's; in particular no non-null field of the
existing frame is ever overwritten. -/
theorem apply_quality_coalesces (existing changed : QFrame) :
    apply_quality existing changed false
      = (unionKeys existing changed).map (fun t =>
          (t, fillnaEntry ((entryAt existing t).getD emptyEntry)
                ((entryAt changed t).getD emptyEntry)))
    ∧ ∀ t e, entryAt existing t = some e →
        ∃ f, entryAt (apply_quality existing changed false) t = some f
          ∧ (e.value.isSome → f.value = e.value)
          ∧ (e.code.isSome → f.code = e.code)
          ∧ (e.details.isSome → f.details = e.details) := by
  have hmain : apply_quality existing changed false
      = (unionKeys existing changed).map (fun t =>
          (t, fillnaEntry ((entryAt existing t).getD emptyEntry)
                ((entryAt changed t).getD emptyEntry))) := by
    rw [apply_quality, if_neg (by simp), combineFirst, unionKeys_mergedFrame]
    apply List.map_congr_left
    intro t ht
    rw [mergedFrame, entryAt_map_keys ht]
    simp only [Option.getD_some]
    rw [fillna_fillna]
  refine ⟨hmain, fun t e he => ?_⟩
  have htmem : t ∈ unionKeys existing changed :=
    mem_unionKeys.mpr (Or.inl (entryAt_mem he))
  refine ⟨fillnaEntry ((entryAt existing t).getD emptyEntry)
    ((entryAt changed t).getD emptyEntry), ?_, ?_, ?_, ?_⟩
  · rw [hmain]
    exact entryAt_map_keys htmem
  · intro hv
    rw [he]
    simp only [Option.getD_some, fillnaEntry]
    obtain ⟨v, hv2⟩ := Option.isSome_iff_exists.mp hv
    rw [hv2]
    rfl
  · intro hv
    rw [he]
    simp only [Option.getD_some, fillnaEntry]
    obtain ⟨v, hv2⟩ := Option.isSome_iff_exists.mp hv
    rw [hv2]
    rfl
  · intro hv
    rw [he]
    simp only [Option.getD_some, fillnaEntry]
    obtain ⟨v, hv2⟩ := Option.isSome_iff_exists.mp hv
    rw [hv2]
    rfl

theorem apply_quality_coalesces_witness :
    ∃ f, entryAt (apply_quality [((0:ℕ), QEntry.mk (some 200) (some "EMT") none)]
        [(0, QEntry.mk (some 100) (some "GAP") (some "gap")),
          (5, QEntry.mk (some 100) none none)] false) 0 = some f
      ∧ ((QEntry.mk (some (200:ℚ)) (some "EMT") none).value.isSome →
          f.value = (QEntry.mk (some (200:ℚ)) (some "EMT") none).value)
      ∧ ((QEntry.mk (some (200:ℚ)) (some "EMT") none).code.isSome →
          f.code = (QEntry.mk (some (200:ℚ)) (some "EMT") none).code)
      ∧ ((QEntry.mk (some (200:ℚ)) (some "EMT") none).details.isSome →
          f.details = (QEntry.mk (some (200:ℚ)) (some "EMT") none).details) :=
  (apply_quality_coalesces _ _).2 0 (QEntry.mk (some 200) (some "EMT") none) rfl

/-! ## Gap engine (src/hydro_processing_tools/evaluator.py, `gap_finder` and
`small_gap_closer`) -/

/-- A value series whose entries may be missing (NaN). -/
abbrev VSeries := List (ℕ × Option ℚ)

/-- Run accumulator of the gap scan: the numpy run-length scan over the
missing-value indicator, carrying the start timestamp and current length of an open
missing run. -/
def gapFinderAux : VSeries → Option (ℕ × ℕ) → List (ℕ × ℕ)
  | [], none => []
  | [], some g => [g]
  | p :: tl, none =>
      if p.2.isNone then gapFinderAux tl (some (p.1, 1)) else gapFinderAux tl none
  | p :: tl, some g =>
      if p.2.isNone then gapFinderAux tl (some (g.1, g.2 + 1))
      else g :: gapFinderAux tl none

/-- The run list computed by `gap_finder` (src/hydro_processing_tools/evaluator.py
lines 10-36) on a non-empty series: every maximal run of missing values, as
(timestamp of the run's first entry, run length), in timestamp order.  This is the
total core; the source function itself errors on the empty series, which
`gap_finder` below captures. -/
def gapRuns (s : VSeries) : List (ℕ × ℕ) := gapFinderAux s none

/-- Translation of `gap_finder` (src/hydro_processing_tools/evaluator.py lines
10-36).  On the empty series the scan yields `idx0 = [0, 1]`, hence `idx = [0]`, and
`data.iloc[idx]` is out of bounds: pandas raises IndexError.  On a non-empty series
every position in `idx` is in bounds and the run list is returned. -/
def gap_finder (data : VSeries) : Except String (List (ℕ × ℕ)) :=
  match data with
  | [] => Except.error "IndexError"
  | _ :: _ => Except.ok (gapRuns data)

/-- The keys at positions `loc(start) .. loc(start)+len-1` of the series:
`series.index[series.index.get_loc(gap[0]) : series.index.get_loc(gap[0]) + gap[1]]`. -/
def gapKeys (s : VSeries) (start len : ℕ) : List ℕ :=
  ((s.drop (s.findIdx (fun p => p.1 == start))).take len).map Prod.fst

/-- The mask removal `series[~series.index.isin(...)]`. -/
def removeKeys (s : VSeries) (ks : List ℕ) : VSeries :=
  s.filter (fun p => decide (p.1 ∉ ks))

/-- The splice loop of `small_gap_closer` (src/hydro_processing_tools/evaluator.py
lines 40-70) over a given run list: for each gap of the ORIGINAL series in order, if
its length is at most `gap_length`, remove from the CURRENT series the block of
entries of that length starting at the position of the gap's start timestamp. -/
def spliceSmallGaps (s : VSeries) (gap_length : ℕ) : VSeries :=
  (gapRuns s).foldl
    (fun acc g => if g.2 ≤ gap_length then removeKeys acc (gapKeys acc g.1 g.2) else acc) s

/-- Translation of `small_gap_closer` (src/hydro_processing_tools/evaluator.py lines
40-70): the IndexError raised by `gap_finder` on the empty series propagates;
otherwise each gap of length at most `gap_length` is spliced out. -/
def small_gap_closer (series : VSeries) (gap_length : ℕ) : Except String VSeries :=
  match gap_finder series with
  | Except.error e => Except.error e
  | Except.ok gaps => Except.ok (gaps.foldl
      (fun acc g => if g.2 ≤ gap_length then removeKeys acc (gapKeys acc g.1 g.2) else acc)
      series)

example : gapRuns [(0, some 1), (1, none), (2, none), (3, some 2), (4, none)]
    = [(1, 2), (4, 1)] := by rfl

example : spliceSmallGaps [(0, some 1), (1, none), (2, none), (3, some 2), (4, none)] 1
    = [(0, some 1), (1, none), (2, none), (3, some 2)] := by rfl

example : spliceSmallGaps [(0, some 1), (1, none), (2, none), (3, some 2), (4, none)] 2
    = [(0, some 1), (3, some 2)] := by rfl

theorem gapRuns_of_all_some {s : VSeries} (h : ∀ p ∈ s, p.2 ≠ none) :
    gapRuns s = [] := by
  induction s with
  | nil => rfl
  | cons p tl ih =>
    have hp : ¬ p.2.isNone := by
      have := h p (List.mem_cons_self p tl)
      simp [Option.isNone_iff_eq_none, this]
    rw [gapRuns, gapFinderAux, if_neg hp]
    exact ih (fun q hq => h q (List.mem_cons_of_mem p hq))

theorem gapRuns_cons_some {p : ℕ × Option ℚ} {tl : VSeries} (hp : ¬ p.2.isNone) :
    gapRuns (p :: tl) = gapRuns tl := by
  rw [gapRuns, gapFinderAux, if_neg hp]
  rfl

theorem gapFinderAux_run {tl : VSeries} : ∀ (run : VSeries) (k0 n : ℕ),
    (∀ p ∈ run, p.2 = none) → (∀ q ∈ tl.head?, ¬ q.2.isNone) →
    gapFinderAux (run ++ tl) (some (k0, n)) = (k0, n + run.length) :: gapFinderAux tl none
  | [], k0, n, _, hq => by
    cases tl with
    | nil => simp [gapFinderAux]
    | cons q tl2 =>
      have hqs : ¬ q.2.isNone := hq q rfl
      simp only [List.nil_append, gapFinderAux, if_neg hqs, List.length_nil, Nat.add_zero]
  | r :: rs, k0, n, hall, hq => by
    have hr : r.2.isNone := by
      have := hall r (List.mem_cons_self r rs)
      simp [Option.isNone_iff_eq_none, this]
    rw [List.cons_append, gapFinderAux, if_pos hr,
      gapFinderAux_run rs k0 (n + 1) (fun p hp => hall p (List.mem_cons_of_mem r hp)) hq]
    simp only [List.length_cons]
    congr 2
    omega

theorem gapRuns_run_head {s : VSeries} {p : ℕ × Option ℚ} {tl : VSeries}
    (hcons : s = p :: tl) (hp : p.2.isNone) :
    gapRuns s = (p.1, (s.takeWhile (fun q => q.2.isNone)).length)
      :: gapRuns (s.dropWhile (fun q => q.2.isNone)) := by
  subst hcons
  have hsplit := List.takeWhile_append_dropWhile (fun q : ℕ × Option ℚ => q.2.isNone)
    (p :: tl)
  have htw : (p :: tl).takeWhile (fun q => q.2.isNone)
      = p :: tl.takeWhile (fun q => q.2.isNone) := by
    rw [List.takeWhile_cons, if_pos hp]
  have hdw : (p :: tl).dropWhile (fun q => q.2.isNone)
      = tl.dropWhile (fun q => q.2.isNone) := by
    rw [List.dropWhile_cons, if_pos hp]
  have htl : tl = tl.takeWhile (fun q => q.2.isNone) ++ tl.dropWhile (fun q => q.2.isNone) :=
    (List.takeWhile_append_dropWhile _ tl).symm
  have hall : ∀ q ∈ tl.takeWhile (fun q => q.2.isNone), q.2 = none := by
    intro q hq
    have := List.mem_takeWhile_imp hq
    simpa [Option.isNone_iff_eq_none] using this
  have hhead : ∀ q ∈ (tl.dropWhile (fun q => q.2.isNone)).head?, ¬ q.2.isNone := by
    intro q hq
    have := List.head?_dropWhile_not (fun q : ℕ × Option ℚ => q.2.isNone) tl
    rw [show (tl.dropWhile (fun q => q.2.isNone)).head? = some q from hq] at this
    simp [this]
  rw [gapRuns, gapFinderAux]
  rw [if_pos hp]
  rw [htw, hdw]
  conv_lhs => rw [htl]
  rw [gapFinderAux_run _ p.1 1 hall hhead]
  simp only [List.length_cons]
  congr 2
  omega

theorem gapFinderAux_head_mem : ∀ (s : VSeries) (acc : Option (ℕ × ℕ)) (g : ℕ × ℕ),
    g ∈ gapFinderAux s acc → g.1 ∈ s.map Prod.fst ∨ (∃ n, acc = some (g.1, n))
  | [], none, g, h => by cases h
  | [], some g0, g, h => by
    simp only [gapFinderAux, List.mem_singleton] at h
    exact Or.inr ⟨g0.2, by rw [h]⟩
  | p :: tl, none, g, h => by
    rw [gapFinderAux] at h
    split_ifs at h with hp
    · rcases gapFinderAux_head_mem tl _ g h with hmem | ⟨n, hacc⟩
      · exact Or.inl (by simp [hmem])
      · simp only [Option.some.injEq, Prod.mk.injEq] at hacc
        exact Or.inl (by simp [hacc.1])
    · rcases gapFinderAux_head_mem tl _ g h with hmem | ⟨n, hacc⟩
      · exact Or.inl (by simp [hmem])
      · cases hacc
  | p :: tl, some g0, g, h => by
    rw [gapFinderAux] at h
    split_ifs at h with hp
    · rcases gapFinderAux_head_mem tl _ g h with hmem | ⟨n, hacc⟩
      · exact Or.inl (by simp [hmem])
      · simp only [Option.some.injEq, Prod.mk.injEq] at hacc
        exact Or.inr ⟨g0.2, by rw [← hacc.1]⟩
    · rcases List.mem_cons.mp h with rfl | h2
      · exact Or.inr ⟨g.2, rfl⟩
      · rcases gapFinderAux_head_mem tl _ g h2 with hmem | ⟨n, hacc⟩
        · exact Or.inl (by simp [hmem])
        · cases hacc

theorem gapRuns_head_mem {s : VSeries} {g : ℕ × ℕ} (h : g ∈ gapRuns s) :
    g.1 ∈ s.map Prod.fst := by
  rcases gapFinderAux_head_mem s none g h with hmem | ⟨n, hacc⟩
  · exact hmem
  · cases hacc

theorem gapKeys_subset (s : VSeries) (k n : ℕ) :
    ∀ x ∈ gapKeys s k n, x ∈ s.map Prod.fst := by
  intro x hx
  rw [gapKeys] at hx
  exact (List.map_subset Prod.fst ((List.take_subset _ _).trans (List.drop_subset _ _))) hx

theorem gapKeys_cons_of_ne {p : ℕ × Option ℚ} {tl : VSeries} {k n : ℕ} (hne : p.1 ≠ k) :
    gapKeys (p :: tl) k n = gapKeys tl k n := by
  rw [gapKeys, gapKeys, List.findIdx_cons]
  have hb : (p.1 == k) = false := by simpa using hne
  rw [hb]
  simp only [cond_false, List.drop_succ_cons]

theorem gapKeys_append_of_not_mem : ∀ {front : VSeries} {tl : VSeries} {k n : ℕ},
    (∀ p ∈ front, p.1 ≠ k) → gapKeys (front ++ tl) k n = gapKeys tl k n := by
  intro front
  induction front with
  | nil => intro tl k n _; rfl
  | cons q front' ih =>
    intro tl k n hfr
    rw [List.cons_append, gapKeys_cons_of_ne (hfr q (List.mem_cons_self q front'))]
    exact ih (fun p hp => hfr p (List.mem_cons_of_mem q hp))

theorem removeKeys_append {front acc : VSeries} {ks : List ℕ}
    (hfr : ∀ p ∈ front, p.1 ∉ ks) :
    removeKeys (front ++ acc) ks = front ++ removeKeys acc ks := by
  rw [removeKeys, List.filter_append, removeKeys]
  congr 1
  exact List.filter_eq_self.mpr (fun p hp => by simpa using hfr p hp)

theorem foldl_gaps_front (limit : ℕ) : ∀ (gs : List (ℕ × ℕ)) (front acc : VSeries),
    (∀ g ∈ gs, ∀ p ∈ front, p.1 ≠ g.1) →
    (∀ p ∈ front, p.1 ∉ acc.map Prod.fst) →
    gs.foldl (fun a g => if g.2 ≤ limit then removeKeys a (gapKeys a g.1 g.2) else a)
        (front ++ acc)
      = front ++ gs.foldl
          (fun a g => if g.2 ≤ limit then removeKeys a (gapKeys a g.1 g.2) else a) acc
  | [], front, acc, _, _ => rfl
  | g :: gs, front, acc, hg, hdisj => by
    simp only [List.foldl_cons]
    by_cases hlim : g.2 ≤ limit
    · rw [if_pos hlim, if_pos hlim,
        gapKeys_append_of_not_mem (hg g (List.mem_cons_self g gs)),
        removeKeys_append (fun p hp hmem =>
          hdisj p hp (gapKeys_subset acc g.1 g.2 _ hmem))]
      exact foldl_gaps_front limit gs front _
        (fun g' hg' => hg g' (List.mem_cons_of_mem g hg'))
        (fun p hp hmem => hdisj p hp
          (((List.filter_sublist _).map Prod.fst).subset hmem))
    · rw [if_neg hlim, if_neg hlim]
      exact foldl_gaps_front limit gs front acc
        (fun g' hg' => hg g' (List.mem_cons_of_mem g hg')) hdisj

/-- Row-retention predicate of `small_gap_closer`: a timestamp is kept when it lies in
no gap of length at most the limit. -/
def keepsRow (s : VSeries) (limit : ℕ) (k : ℕ) : Bool :=
  decide (∀ g ∈ gapRuns s, g.2 ≤ limit → k ∉ gapKeys s g.1 g.2)

theorem keepsRow_iff {s : VSeries} {limit k : ℕ} :
    keepsRow s limit k = true ↔ ∀ g ∈ gapRuns s, g.2 ≤ limit → k ∉ gapKeys s g.1 g.2 := by
  rw [keepsRow, decide_eq_true_eq]

theorem dropWhile_isNone_head (l : VSeries) :
    ∀ q ∈ (l.dropWhile (fun q => q.2.isNone)).head?, ¬ q.2.isNone := by
  intro q hq
  have := List.head?_dropWhile_not (fun q : ℕ × Option ℚ => q.2.isNone) l
  rw [show (l.dropWhile (fun q : ℕ × Option ℚ => q.2.isNone)).head? = some q from hq] at this
  simp [this]

theorem spliceSmallGaps_filter_aux (limit : ℕ) :
    ∀ (n : ℕ) (s : VSeries), s.length ≤ n → (s.map Prod.fst).Nodup →
    spliceSmallGaps s limit = s.filter (fun p => keepsRow s limit p.1) := by
  intro n
  induction n with
  | zero =>
    intro s hlen _
    have hnil : s = [] := List.length_eq_zero.mp (Nat.le_zero.mp hlen)
    subst hnil
    rfl
  | succ n ih =>
    intro s hlen hnd
    cases s with
    | nil => rfl
    | cons p tl =>
      have hnd2 := hnd
      rw [List.map_cons, List.nodup_cons] at hnd2
      by_cases hp : p.2.isNone
      · -- missing head: the series starts with a maximal missing run
        have hsplit : (p :: tl).takeWhile (fun q => q.2.isNone)
            ++ (p :: tl).dropWhile (fun q => q.2.isNone) = p :: tl :=
          List.takeWhile_append_dropWhile _ _
        set run := (p :: tl).takeWhile (fun q => q.2.isNone) with hrun
        set tl' := (p :: tl).dropWhile (fun q => q.2.isNone) with htl2
        have hrunc : run = p :: tl.takeWhile (fun q => q.2.isNone) := by
          rw [hrun, List.takeWhile_cons, if_pos hp]
        have hgf : gapRuns (p :: tl) = (p.1, run.length) :: gapRuns tl' :=
          gapRuns_run_head rfl hp
        have hrun_none : ∀ q ∈ run, q.2 = none := by
          intro q hq
          have := List.mem_takeWhile_imp hq
          simpa [Option.isNone_iff_eq_none] using this
        have hfind : (p :: tl).findIdx (fun q => q.1 == p.1) = 0 := by
          rw [List.findIdx_cons]
          simp
        have hgk : gapKeys (p :: tl) p.1 run.length = run.map Prod.fst := by
          rw [gapKeys, hfind, List.drop_zero]
          conv_lhs => rw [← hsplit]
          rw [List.take_left]
        have hnds : ((run ++ tl').map Prod.fst).Nodup := by rw [hsplit]; exact hnd
        rw [List.map_append, List.nodup_append] at hnds
        obtain ⟨hndrun, hndtl, hdisj⟩ := hnds
        have hlrun : 0 < run.length := by rw [hrunc]; simp
        have hlen2 : run.length + tl'.length = tl.length + 1 := by
          have := congrArg List.length hsplit
          simpa using this
        have hlen' : tl'.length ≤ n := by
          simp only [List.length_cons] at hlen
          omega
        have hihtl := ih tl' hlen' hndtl
        have hfrontkeys : ∀ g ∈ gapRuns tl', ∀ q ∈ run, q.1 ≠ g.1 := by
          intro g hg q hq hqeq
          exact hdisj (List.mem_map_of_mem _ hq) (hqeq ▸ gapRuns_head_mem hg)
        have hgkcons : ∀ g ∈ gapRuns tl',
            gapKeys (p :: tl) g.1 g.2 = gapKeys tl' g.1 g.2 := by
          intro g hg
          conv_lhs => rw [← hsplit]
          exact gapKeys_append_of_not_mem (fun q hq => hfrontkeys g hg q hq)
        have hiff : ∀ k : ℕ, k ∈ tl'.map Prod.fst →
            (keepsRow (p :: tl) limit k = keepsRow tl' limit k) := by
          intro k hq
          rcases htv : keepsRow tl' limit k with _ | _
          · rcases hsv : keepsRow (p :: tl) limit k with _ | _
            · rfl
            · exfalso
              rw [keepsRow_iff] at hsv
              have hkt : keepsRow tl' limit k = true := by
                rw [keepsRow_iff]
                intro g hg hgl
                have := hsv g (by rw [hgf]; exact List.mem_cons_of_mem _ hg) hgl
                rwa [hgkcons g hg] at this
              rw [htv] at hkt
              cases hkt
          · rw [keepsRow_iff]
            rw [keepsRow_iff] at htv
            intro g hg hgl
            rw [hgf] at hg
            rcases List.mem_cons.mp hg with rfl | hg2
            · rw [hgk]
              intro hmem
              exact hdisj hmem hq
            · rw [hgkcons g hg2]
              exact htv g hg2 hgl
        by_cases hlim : run.length ≤ limit
        · rw [spliceSmallGaps, hgf, List.foldl_cons, if_pos hlim, hgk]
          have hrem : removeKeys (p :: tl) (run.map Prod.fst) = tl' := by
            conv_lhs => rw [← hsplit]
            rw [removeKeys, List.filter_append]
            have h1 : run.filter (fun q => decide (q.1 ∉ run.map Prod.fst)) = [] := by
              rw [List.filter_eq_nil_iff]
              intro q hq
              simp [List.mem_map_of_mem Prod.fst hq]
            have h2 : tl'.filter (fun q => decide (q.1 ∉ run.map Prod.fst)) = tl' := by
              rw [List.filter_eq_self]
              intro q hq
              have : q.1 ∉ run.map Prod.fst :=
                fun hmem => hdisj hmem (List.mem_map_of_mem _ hq)
              simpa using this
            rw [h1, h2, List.nil_append]
          rw [hrem,
            show (gapRuns tl').foldl (fun a g =>
              if g.2 ≤ limit then removeKeys a (gapKeys a g.1 g.2) else a) tl'
              = spliceSmallGaps tl' limit from rfl, hihtl]
          rw [show (p :: tl).filter (fun q => keepsRow (p :: tl) limit q.1)
              = (run ++ tl').filter (fun q => keepsRow (p :: tl) limit q.1) from by
            rw [hsplit], List.filter_append]
          have h3 : run.filter (fun q => keepsRow (p :: tl) limit q.1) = [] := by
            rw [List.filter_eq_nil_iff]
            intro q hq
            intro hkeep
            rw [keepsRow_iff] at hkeep
            exact hkeep (p.1, run.length) (by rw [hgf]; exact List.mem_cons_self _ _) hlim
              (by rw [hgk]; exact List.mem_map_of_mem _ hq)
          have h4 : tl'.filter (fun q => keepsRow (p :: tl) limit q.1)
              = tl'.filter (fun q => keepsRow tl' limit q.1) :=
            List.filter_congr (fun q hq => hiff q.1 (List.mem_map_of_mem _ hq))
          rw [h3, h4, List.nil_append]
        · rw [spliceSmallGaps, hgf, List.foldl_cons, if_neg hlim]
          have hstep : (gapRuns tl').foldl (fun a g =>
              if g.2 ≤ limit then removeKeys a (gapKeys a g.1 g.2) else a) (p :: tl)
              = run ++ spliceSmallGaps tl' limit := by
            conv_lhs => rw [← hsplit]
            exact foldl_gaps_front limit (gapRuns tl') run tl' hfrontkeys
              (fun q hq hmem => hdisj (List.mem_map_of_mem _ hq) hmem)
          rw [hstep, hihtl]
          rw [show (p :: tl).filter (fun q => keepsRow (p :: tl) limit q.1)
              = (run ++ tl').filter (fun q => keepsRow (p :: tl) limit q.1) from by
            rw [hsplit], List.filter_append]
          have h5 : run.filter (fun q => keepsRow (p :: tl) limit q.1) = run := by
            rw [List.filter_eq_self]
            intro q hq
            rw [keepsRow_iff]
            intro g hg hgl
            rw [hgf] at hg
            rcases List.mem_cons.mp hg with rfl | hg2
            · exact absurd hgl hlim
            · rw [hgkcons g hg2]
              intro hmem
              exact hdisj (List.mem_map_of_mem _ hq)
                (gapKeys_subset tl' g.1 g.2 _ hmem)
          have h6 : tl'.filter (fun q => keepsRow (p :: tl) limit q.1)
              = tl'.filter (fun q => keepsRow tl' limit q.1) :=
            List.filter_congr (fun q hq => hiff q.1 (List.mem_map_of_mem _ hq))
          rw [h5, h6]
      · -- present head: the head row survives every removal
        have hgf : gapRuns (p :: tl) = gapRuns tl := gapRuns_cons_some hp
        have hlen' : tl.length ≤ n := by
          simp only [List.length_cons] at hlen
          omega
        have hgheads : ∀ g ∈ gapRuns tl, p.1 ≠ g.1 := by
          intro g hg hpe
          exact hnd2.1 (hpe ▸ gapRuns_head_mem hg)
        have hstep := foldl_gaps_front limit (gapRuns tl) [p] tl
          (fun g hg q hq => by
            rcases List.mem_singleton.mp hq with rfl
            exact hgheads g hg)
          (fun q hq => by
            rcases List.mem_singleton.mp hq with rfl
            exact hnd2.1)
        rw [List.singleton_append] at hstep
        rw [spliceSmallGaps, hgf, hstep,
          show (gapRuns tl).foldl (fun a g =>
            if g.2 ≤ limit then removeKeys a (gapKeys a g.1 g.2) else a) tl
            = spliceSmallGaps tl limit from rfl,
          ih tl hlen' hnd2.2]
        have hgkcons : ∀ g ∈ gapRuns tl,
            gapKeys (p :: tl) g.1 g.2 = gapKeys tl g.1 g.2 :=
          fun g hg => gapKeys_cons_of_ne (hgheads g hg)
        rw [List.filter_cons]
        have hpk : keepsRow (p :: tl) limit p.1 = true := by
          rw [keepsRow_iff]
          intro g hg hgl
          rw [hgf] at hg
          rw [hgkcons g hg]
          intro hmem
          exact hnd2.1 (gapKeys_subset tl g.1 g.2 _ hmem)
        rw [hpk, if_pos rfl]
        have h7 : tl.filter (fun q => keepsRow (p :: tl) limit q.1)
            = tl.filter (fun q => keepsRow tl limit q.1) := by
          apply List.filter_congr
          intro q hq
          rcases htv : keepsRow tl limit q.1 with _ | _
          · rcases hsv : keepsRow (p :: tl) limit q.1 with _ | _
            · rfl
            · exfalso
              rw [keepsRow_iff] at hsv
              have hkt : keepsRow tl limit q.1 = true := by
                rw [keepsRow_iff]
                intro g hg hgl
                have := hsv g (by rw [hgf]; exact hg) hgl
                rwa [hgkcons g hg] at this
              rw [htv] at hkt
              cases hkt
          · rw [keepsRow_iff]
            rw [keepsRow_iff] at htv
            intro g hg hgl
            rw [hgf] at hg
            rw [hgkcons g hg]
            exact htv g hg hgl
        rw [h7]
        rfl

theorem gapRuns_maximal_runs :
    ∀ (n : ℕ) (s : VSeries), s.length ≤ n → (s.map Prod.fst).Nodup →
    ∀ g ∈ gapRuns s, ∃ pre run post,
      s = pre ++ run ++ post
      ∧ run.map Prod.fst = gapKeys s g.1 g.2
      ∧ run.length = g.2 ∧ 0 < g.2
      ∧ (∀ p ∈ run, p.2 = none)
      ∧ (run.head?.map Prod.fst = some g.1)
      ∧ (∀ q ∈ pre.getLast?, q.2 ≠ none)
      ∧ (∀ q ∈ post.head?, q.2 ≠ none) := by
  intro n
  induction n with
  | zero =>
    intro s hlen _ g hg
    have hnil : s = [] := List.length_eq_zero.mp (Nat.le_zero.mp hlen)
    subst hnil
    cases hg
  | succ n ih =>
    intro s hlen hnd g hg
    cases s with
    | nil => cases hg
    | cons p tl =>
      have hnd2 := hnd
      rw [List.map_cons, List.nodup_cons] at hnd2
      by_cases hp : p.2.isNone
      · have hsplit : (p :: tl).takeWhile (fun q => q.2.isNone)
            ++ (p :: tl).dropWhile (fun q => q.2.isNone) = p :: tl :=
          List.takeWhile_append_dropWhile _ _
        set run := (p :: tl).takeWhile (fun q => q.2.isNone) with hrundef
        set tl' := (p :: tl).dropWhile (fun q => q.2.isNone) with htl2
        have hrunc : run = p :: tl.takeWhile (fun q => q.2.isNone) := by
          rw [hrundef, List.takeWhile_cons, if_pos hp]
        have hgf : gapRuns (p :: tl) = (p.1, run.length) :: gapRuns tl' :=
          gapRuns_run_head rfl hp
        have hrun_none : ∀ q ∈ run, q.2 = none := by
          intro q hq
          have := List.mem_takeWhile_imp hq
          simpa [Option.isNone_iff_eq_none] using this
        have hfind : (p :: tl).findIdx (fun q => q.1 == p.1) = 0 := by
          rw [List.findIdx_cons]
          simp
        have hgk : gapKeys (p :: tl) p.1 run.length = run.map Prod.fst := by
          rw [gapKeys, hfind, List.drop_zero]
          conv_lhs => rw [← hsplit]
          rw [List.take_left]
        have hnds : ((run ++ tl').map Prod.fst).Nodup := by rw [hsplit]; exact hnd
        rw [List.map_append, List.nodup_append] at hnds
        obtain ⟨hndrun, hndtl, hdisj⟩ := hnds
        have hlrun : 0 < run.length := by rw [hrunc]; simp
        have hlen2 : run.length + tl'.length = tl.length + 1 := by
          have := congrArg List.length hsplit
          simpa using this
        have hlen' : tl'.length ≤ n := by
          simp only [List.length_cons] at hlen
          omega
        have hgkcons : ∀ g ∈ gapRuns tl',
            gapKeys (p :: tl) g.1 g.2 = gapKeys tl' g.1 g.2 := by
          intro g hg
          conv_lhs => rw [← hsplit]
          refine gapKeys_append_of_not_mem (fun q hq hqe => ?_)
          exact hdisj (List.mem_map_of_mem _ hq) (hqe ▸ gapRuns_head_mem hg)
        rw [hgf] at hg
        rcases List.mem_cons.mp hg with rfl | hg2
        · refine ⟨[], run, tl', by simpa using hsplit.symm, hgk.symm, rfl, hlrun,
            hrun_none, ?_, by simp, ?_⟩
          · rw [hrunc]
            simp
          · intro q hq
            have := dropWhile_isNone_head (p :: tl) q hq
            simpa [Option.isNone_iff_eq_none] using this
        · obtain ⟨pre', run', post', hdec, hkeys, hlength, hpos, hnone, hhead, hpre, hpost⟩ :=
            ih tl' hlen' hndtl g hg2
          refine ⟨run ++ pre', run', post', ?_, ?_, hlength, hpos, hnone, hhead, ?_, hpost⟩
          · rw [← hsplit, hdec]
            simp [List.append_assoc]
          · rw [hgkcons g hg2]
            exact hkeys
          · intro q hq
            cases hpre' : pre' with
            | nil =>
              exfalso
              rw [hpre'] at hdec
              simp only [List.nil_append] at hdec
              obtain ⟨r0, rs, hr0⟩ := List.exists_cons_of_ne_nil
                (show run' ≠ [] from List.ne_nil_of_length_pos (hlength ▸ hpos))
              have hh : tl'.head? = some r0 := by rw [hdec, hr0]; rfl
              have := dropWhile_isNone_head (p :: tl) r0 hh
              have hr0n : r0.2 = none := hnone r0 (by rw [hr0]; exact List.mem_cons_self _ _)
              simp [hr0n] at this
            | cons x xs =>
              rw [hpre'] at hq hpre
              rw [List.getLast?_append] at hq
              cases hgl : (x :: xs).getLast? with
              | none => simp at hgl
              | some y =>
                rw [hgl] at hq
                simp only [Option.or_some, Option.mem_def, Option.some.injEq] at hq
                subst hq
                exact hpre y (by rw [hgl]; rfl)
      · have hgf : gapRuns (p :: tl) = gapRuns tl := gapRuns_cons_some hp
        have hlen' : tl.length ≤ n := by
          simp only [List.length_cons] at hlen
          omega
        rw [hgf] at hg
        have hne : p.1 ≠ g.1 := fun hpe => hnd2.1 (hpe ▸ gapRuns_head_mem hg)
        obtain ⟨pre', run', post', hdec, hkeys, hlength, hpos, hnone, hhead, hpre, hpost⟩ :=
          ih tl hlen' hnd2.2 g hg
        refine ⟨p :: pre', run', post', by rw [hdec]; rfl, ?_, hlength, hpos, hnone,
          hhead, ?_, hpost⟩
        · rw [gapKeys_cons_of_ne hne]
          exact hkeys
        · intro q hq
          cases hpre' : pre' with
          | nil =>
            rw [hpre'] at hq
            simp only [List.getLast?_singleton, Option.mem_def, Option.some.injEq] at hq
            subst hq
            simpa [Option.isNone_iff_eq_none] using hp
          | cons x xs =>
            rw [hpre'] at hq
            rw [List.getLast?_cons_cons] at hq
            refine hpre q ?_
            rw [hpre']
            exact hq

theorem gap_finder_ok {s : VSeries} (hne : s ≠ []) :
    gap_finder s = Except.ok (gapRuns s) := by
  cases s with
  | nil => exact absurd rfl hne
  | cons p tl => rfl

theorem small_gap_closer_ok {s : VSeries} (hne : s ≠ []) (limit : ℕ) :
    small_gap_closer s limit = Except.ok (spliceSmallGaps s limit) := by
  cases s with
  | nil => exact absurd rfl hne
  | cons p tl => rfl

/-- C7 (counterexample): the empty series contains no missing values, yet
`gap_finder` raises IndexError on it (`data.iloc[idx]` with `idx = [0]` is out of
bounds), and `small_gap_closer` propagates that error instead of returning the
series unchanged — so the no-missing no-op clause fails at the empty series. -/
theorem small_gap_closer_empty_errors :
    gap_finder ([] : VSeries) = Except.error "IndexError"
    ∧ small_gap_closer ([] : VSeries) 1 = Except.error "IndexError" :=
  ⟨rfl, rfl⟩

/-- C7 (amended): on every NON-EMPTY series, `small_gap_closer` succeeds and removes
exactly the rows whose timestamp belongs to a gap of length at most the limit, where
every gap reported by `gap_finder` is a maximal run of missing values; rows of
strictly longer runs are left in place, still missing (the survivors are kept
verbatim by the filter); and on a non-empty series without missing values
`gap_finder` returns the empty gap list and `small_gap_closer` returns its input
unchanged — a true no-op.  On the empty series both raise IndexError instead. -/
theorem small_gap_closer_props (s : VSeries) (limit : ℕ)
    (hne : s ≠ []) (hnd : (s.map Prod.fst).Nodup) :
    small_gap_closer s limit
      = Except.ok (s.filter (fun p => keepsRow s limit p.1))
    ∧ (∀ gs, gap_finder s = Except.ok gs → ∀ g ∈ gs, ∃ pre run post,
        s = pre ++ run ++ post
        ∧ run.map Prod.fst = gapKeys s g.1 g.2
        ∧ run.length = g.2 ∧ 0 < g.2
        ∧ (∀ p ∈ run, p.2 = none)
        ∧ (run.head?.map Prod.fst = some g.1)
        ∧ (∀ q ∈ pre.getLast?, q.2 ≠ none)
        ∧ (∀ q ∈ post.head?, q.2 ≠ none))
    ∧ ((∀ p ∈ s, p.2 ≠ none) → gap_finder s = Except.ok []
        ∧ small_gap_closer s limit = Except.ok s) := by
  refine ⟨?_, ?_, ?_⟩
  · rw [small_gap_closer_ok hne limit]
    exact congrArg Except.ok (spliceSmallGaps_filter_aux limit s.length s (le_refl _) hnd)
  · intro gs hgs g hg
    rw [gap_finder_ok hne] at hgs
    cases hgs
    exact gapRuns_maximal_runs s.length s (le_refl _) hnd g hg
  · intro hall
    refine ⟨by rw [gap_finder_ok hne, gapRuns_of_all_some hall], ?_⟩
    rw [small_gap_closer_ok hne limit]
    refine congrArg Except.ok ?_
    rw [spliceSmallGaps, gapRuns_of_all_some hall]
    rfl

theorem small_gap_closer_props_witness :
    small_gap_closer [(0, some 1), (1, none), (2, none), (3, some 2), (4, none)] 1
      = Except.ok
          ([(0, some 1), (1, none), (2, none), (3, some 2), (4, none)].filter
            (fun p =>
              keepsRow [(0, some 1), (1, none), (2, none), (3, some 2), (4, none)] 1 p.1)) :=
  (small_gap_closer_props [(0, some 1), (1, none), (2, none), (3, some 2), (4, none)] 1
    (by decide) (by decide)).1

/-! ## Quality encoder, empty-check branch (src/hydrobot/processor.py,
Processor.quality_encoder) -/

/-- Modelled from the spec: `hydrobot/evaluator.py` (imported as `evaluator` by
src/hydrobot/processor.py) is not under src/.  Spec section 4.4 step 2: the staleness
downgrade caps the code in force wherever the elapsed time since the most recent
check exceeds an interval threshold, so a cap record is emitted at each instant where
a threshold is first exceeded after a check.  With an empty check series there is no
"most recent check" and no records are produced. -/
def bulk_downgrade_out_of_validation (qcSeries : List (ℕ × ℚ))
    (intervalDict : List (ℕ × ℚ)) : QFrame :=
  qcSeries.flatMap (fun c => intervalDict.map (fun iv =>
    (c.1 + iv.1, QEntry.mk (some iv.2) (some "OOV") (some "Out of validation"))))

/-- End edge of a gap: the first entry after the missing run, when the series
continues. -/
def gapEndEdge (std : VSeries) (start len : ℕ) : QFrame :=
  match ((std.drop (std.findIdx (fun p => p.1 == start) + len))).head? with
  | some q => [(q.1, QEntry.mk (some 100) (some "GAP") (some "End of missing data"))]
  | none => []

/-- Modelled from the spec: missing-data marking (spec section 4.4 step 3), from the
missing `hydrobot/evaluator.py`.  Every gap of the standard series longer than
`gap_limit` is marked with the boundary code 100 at its edges: at the gap's first
timestamp and, when the series continues after the run, at the first timestamp after
it. -/
def missing_data_quality_code (std : VSeries) (gapLimit : ℕ) : QFrame :=
  (gapRuns std).flatMap (fun g =>
    if gapLimit < g.2 then
      (g.1, QEntry.mk (some 100) (some "GAP") (some "Missing data"))
        :: gapEndEdge std g.1 g.2
    else [])

/-- Modelled from the spec: the ceiling clamp (spec section 4.4 step 4), from the
missing `hydrobot/evaluator.py`: every code of the running timeline is clamped to at
most `max_qc`; absent fields stay absent. -/
def max_qc_limiter (q : QFrame) (maxQC : ℚ) : QFrame :=
  q.map (fun p =>
    (p.1, QEntry.mk (p.2.value.map (fun v => min v maxQC)) p.2.code p.2.details))

/-- Translation of the empty-check branch of `Processor.quality_encoder`
(src/hydrobot/processor.py lines 1229-1264) for a default processing run, where the
quality frame is empty when the encoder runs (`fetch_quality` defaults to False).
The six `.loc` assignments append the `from_date` row and then the `to_date` row;
afterwards the staleness downgrade (called with the empty check series), the
missing-data marking and the ceiling clamp are each merged in with
`_apply_quality(replace=False)`.  The three later steps are modelled from the spec
because `hydrobot/evaluator.py` is not under src/. -/
def quality_encoder_empty_check (from_date to_date : ℕ) (std : VSeries)
    (gap_limit : ℕ) (max_qc : ℚ) (interval_dict : List (ℕ × ℚ)) : QFrame :=
  let q1 : QFrame :=
    [(from_date, QEntry.mk (some 200) (some "EMT")
        (some "Empty data, start time set to qc200")),
     (to_date, QEntry.mk (some 0) (some "EMT, END") (some "Empty data, qc0 at end"))]
  let q2 := apply_quality q1 (bulk_downgrade_out_of_validation [] interval_dict) false
  let q3 := apply_quality q2 (missing_data_quality_code std gap_limit) false
  let q4 := apply_quality q3 (max_qc_limiter q3 max_qc) false
  q4

theorem fillna_emptyEntry (e : QEntry) : fillnaEntry e emptyEntry = e := by
  cases e with
  | mk v c d => cases v <;> cases c <;> cases d <;> rfl

theorem entryAt_self : ∀ {q : QFrame}, (q.map Prod.fst).Nodup →
    ∀ {p : ℕ × QEntry}, p ∈ q → entryAt q p.1 = some p.2 := by
  intro q
  induction q with
  | nil => intro _ p hp; cases hp
  | cons r tl ih =>
    intro hnd p hp
    rw [List.map_cons, List.nodup_cons] at hnd
    rcases List.mem_cons.mp hp with rfl | hptl
    · rw [entryAt, if_pos rfl]
    · have hne : r.1 ≠ p.1 := fun he => hnd.1 (he ▸ List.mem_map_of_mem _ hptl)
      rw [entryAt, if_neg hne]
      exact ih hnd.2 hptl

theorem entryAt_max_qc_limiter (maxQC : ℚ) :
    ∀ (q : QFrame) (k : ℕ),
    entryAt (max_qc_limiter q maxQC) k = (entryAt q k).map
      (fun e => QEntry.mk (e.value.map (fun v => min v maxQC)) e.code e.details) := by
  intro q
  induction q with
  | nil => intro k; rfl
  | cons r tl ih =>
    intro k
    by_cases hk : r.1 = k
    · simp [max_qc_limiter, entryAt, hk]
    · simp only [max_qc_limiter, List.map_cons, entryAt, hk, if_neg, if_false]
      exact ih k

theorem unionKeys_right_nil {q : QFrame} (hs : List.Chain' (· < ·) (q.map Prod.fst)) :
    unionKeys q ([] : QFrame) = q.map Prod.fst := by
  refine sorted_eq_of_mem_iff (unionKeys_chain' _ _) hs (fun k => ?_)
  rw [mem_unionKeys]
  simp

theorem apply_quality_frame_eq {q cand : QFrame}
    (hs : List.Chain' (· < ·) (q.map Prod.fst)) (hnd : (q.map Prod.fst).Nodup)
    (hkeys : unionKeys q cand = q.map Prod.fst)
    (hfill : ∀ p ∈ q, fillnaEntry p.2 ((entryAt cand p.1).getD emptyEntry) = p.2) :
    apply_quality q cand false = q := by
  rw [(apply_quality_coalesces q cand).1, hkeys]
  have hstep : (q.map Prod.fst).map (fun t =>
      (t, fillnaEntry ((entryAt q t).getD emptyEntry)
          ((entryAt cand t).getD emptyEntry)))
      = q.map (fun p => (p.1, fillnaEntry ((entryAt q p.1).getD emptyEntry)
          ((entryAt cand p.1).getD emptyEntry))) := by
    rw [List.map_map]
    rfl
  rw [hstep]
  have hcongr : ∀ p ∈ q, (p.1, fillnaEntry ((entryAt q p.1).getD emptyEntry)
      ((entryAt cand p.1).getD emptyEntry)) = p := by
    intro p hp
    rw [entryAt_self hnd hp]
    simp only [Option.getD_some]
    rw [hfill p hp]
  calc q.map (fun p => (p.1, fillnaEntry ((entryAt q p.1).getD emptyEntry)
        ((entryAt cand p.1).getD emptyEntry)))
      = q.map (fun p => p) := List.map_congr_left hcongr
    _ = q := List.map_id' q

theorem apply_quality_nil {q : QFrame}
    (hs : List.Chain' (· < ·) (q.map Prod.fst)) (hnd : (q.map Prod.fst).Nodup) :
    apply_quality q [] false = q := by
  refine apply_quality_frame_eq hs hnd (unionKeys_right_nil hs) (fun p _ => ?_)
  rw [show entryAt ([] : QFrame) p.1 = none from rfl]
  exact fillna_emptyEntry p.2

theorem apply_quality_limiter {q : QFrame} (maxQC : ℚ)
    (hs : List.Chain' (· < ·) (q.map Prod.fst)) (hnd : (q.map Prod.fst).Nodup) :
    apply_quality q (max_qc_limiter q maxQC) false = q := by
  have hkeys : unionKeys q (max_qc_limiter q maxQC) = q.map Prod.fst := by
    refine sorted_eq_of_mem_iff (unionKeys_chain' _ _) hs (fun k => ?_)
    rw [mem_unionKeys]
    have : (max_qc_limiter q maxQC).map Prod.fst = q.map Prod.fst := by
      rw [max_qc_limiter, List.map_map]
      rfl
    rw [this]
    tauto
  refine apply_quality_frame_eq hs hnd hkeys (fun p hp => ?_)
  rw [entryAt_max_qc_limiter maxQC q p.1, entryAt_self hnd hp]
  cases hv : p.2 with
  | mk v c d =>
    simp only [Option.map_some', Option.getD_some, fillnaEntry]
    cases v <;> cases c <;> cases d <;> rfl

/-- C1 (counterexample): with an empty check series but a standard series containing a
missing run longer than the gap limit, the quality encoder does not stop at the two
`from`/`to` records: the later missing-data marking step adds boundary records at the
gap edges (here at 20 and 40), so the output has four records, not two. -/
theorem quality_encoder_empty_check_adds_gap_records :
    (quality_encoder_empty_check 0 100
      [(10, some 1), (20, none), (30, none), (40, some 2)] 1 600 []).map Prod.fst
      = [0, 20, 40, 100] ∧
    (quality_encoder_empty_check 0 100
      [(10, some 1), (20, none), (30, none), (40, some 2)] 1 600 []).length ≠ 2 := by
  constructor <;> decide

/-- C1 (amended): for an empty check series, if `from_date < to_date` and every
missing run of the standard series is within the gap limit, the quality encoder
returns exactly the two records — code 200 at `from_date` and code 0 at `to_date` —
and the later pipeline steps (staleness downgrade on the empty check series,
missing-data marking, ceiling clamp merged with replace=False) leave them unchanged.
Without the gap hypothesis the marking step may add further records. -/
theorem quality_encoder_empty_check_two_records
    (from_date to_date : ℕ) (std : VSeries) (gap_limit : ℕ) (max_qc : ℚ)
    (interval_dict : List (ℕ × ℚ))
    (hft : from_date < to_date)
    (hgaps : ∀ g ∈ gapRuns std, g.2 ≤ gap_limit) :
    quality_encoder_empty_check from_date to_date std gap_limit max_qc interval_dict
      = [(from_date, QEntry.mk (some 200) (some "EMT")
            (some "Empty data, start time set to qc200")),
         (to_date, QEntry.mk (some 0) (some "EMT, END")
            (some "Empty data, qc0 at end"))] := by
  have hmsg : missing_data_quality_code std gap_limit = [] := by
    rw [missing_data_quality_code]
    refine List.flatMap_eq_nil_iff.mpr (fun g hg => ?_)
    exact if_neg (Nat.not_lt.mpr (hgaps g hg))
  have hs1 : List.Chain'
      (· < ·) (([(from_date, QEntry.mk (some 200) (some "EMT")
          (some "Empty data, start time set to qc200")),
        (to_date, QEntry.mk (some 0) (some "EMT, END")
          (some "Empty data, qc0 at end"))] : QFrame).map Prod.fst) := by
    simp [List.chain'_cons, List.chain'_singleton, hft]
  have hnd1 := (List.chain'_iff_pairwise.mp hs1).imp (fun h => Nat.ne_of_lt h)
  have step1 : apply_quality
      [(from_date, QEntry.mk (some 200) (some "EMT")
          (some "Empty data, start time set to qc200")),
        (to_date, QEntry.mk (some 0) (some "EMT, END")
          (some "Empty data, qc0 at end"))]
      (bulk_downgrade_out_of_validation [] interval_dict) false
      = [(from_date, QEntry.mk (some 200) (some "EMT")
          (some "Empty data, start time set to qc200")),
        (to_date, QEntry.mk (some 0) (some "EMT, END")
          (some "Empty data, qc0 at end"))] := by
    rw [show bulk_downgrade_out_of_validation [] interval_dict = [] from rfl]
    exact apply_quality_nil hs1 hnd1
  calc quality_encoder_empty_check from_date to_date std gap_limit max_qc interval_dict
      = apply_quality
          (apply_quality
            (apply_quality
              [(from_date, QEntry.mk (some 200) (some "EMT")
                  (some "Empty data, start time set to qc200")),
                (to_date, QEntry.mk (some 0) (some "EMT, END")
                  (some "Empty data, qc0 at end"))]
              (bulk_downgrade_out_of_validation [] interval_dict) false)
            (missing_data_quality_code std gap_limit) false)
          (max_qc_limiter
            (apply_quality
              (apply_quality
                [(from_date, QEntry.mk (some 200) (some "EMT")
                    (some "Empty data, start time set to qc200")),
                  (to_date, QEntry.mk (some 0) (some "EMT, END")
                    (some "Empty data, qc0 at end"))]
                (bulk_downgrade_out_of_validation [] interval_dict) false)
              (missing_data_quality_code std gap_limit) false) max_qc) false := rfl
    _ = [(from_date, QEntry.mk (some 200) (some "EMT")
            (some "Empty data, start time set to qc200")),
         (to_date, QEntry.mk (some 0) (some "EMT, END")
            (some "Empty data, qc0 at end"))] := by
        rw [step1, hmsg, apply_quality_nil hs1 hnd1]
        exact apply_quality_limiter max_qc hs1 hnd1

/-- C1 witness: a concrete run of the amended theorem — window 0 to 100, a standard
series with no missing entries, gap limit 0 — yields exactly the two records. -/
theorem quality_encoder_empty_check_two_records_witness :
    quality_encoder_empty_check 0 100 [(10, some 1)] 0 600 []
      = [(0, QEntry.mk (some 200) (some "EMT")
            (some "Empty data, start time set to qc200")),
         (100, QEntry.mk (some 0) (some "EMT, END")
            (some "Empty data, qc0 at end"))] :=
  quality_encoder_empty_check_two_records 0 100 [(10, some 1)] 0 600 []
    (by decide) (by decide)
